import Mathlib

/-!
Verification development for the bblp-discord-bot schedule generator and
drift-tolerant delivery loop (`src/index.js`).

Modelling conventions for the shallow embedding:

* JS numbers are `ℚ` (money amounts, weights) or `ℤ` (millisecond timestamps);
  a JS number that can be `NaN` (an invalid `Date`'s `getTime()`) is
  `Option ℤ` with `none` standing for `NaN`.
* `Math.random`-driven choices (per-hour noise, index shuffles, second
  sampling) are explicit parameters collected in `Oracle`; the properties the
  JS samplers guarantee by construction (lengths, distinctness, bounds,
  sortedness) accompany the theorems as hypotheses.
* ISO-8601 timestamp strings are represented by their millisecond values: for
  the fixed `toISOString` format, string order and equality coincide with
  numeric order and equality.  `Array.prototype.sort` (required to be stable
  since ES2019) with an at-comparator is modelled as `List.insertionSort`:
  a stable sort with respect to a total preorder is unique as a function, so
  any stable implementation represents it faithfully.
* Display payloads (message texts, image file names) carried by schedule
  entries are omitted: they are opaque to every algorithm modelled here.

The `Rat` arithmetic operations of the library are `@[irreducible]`, which
only affects elaborator-side reduction (the kernel ignores reducibility);
they are reset to `semireducible` so that concrete rational computations can
be settled by `decide`.
-/

set_option allowUnsafeReducibility true

attribute [semireducible] Rat.add Rat.sub Rat.mul Rat.inv Rat.div Rat.neg Rat.blt

namespace Bblp

/-! ### Exact rational floor / ceiling / `Math.round` -/

/-- Executable floor of a rational; agrees with `⌊x⌋` (see `ratFloor_eq`). -/
def ratFloor (x : ℚ) : ℤ := x.num / (x.den : ℤ)

/-- Executable ceiling of a rational; agrees with `⌈x⌉` (see `ratCeil_eq`). -/
def ratCeil (x : ℚ) : ℤ := -ratFloor (-x)

/-- `Math.round x` = `⌊x + 1/2⌋` (round half toward +∞), exact on rationals. -/
def jsRound (x : ℚ) : ℤ := ratFloor (x + 1/2)

/-! ### TimeSource (`initializeTimeOffset` / `getCurrentUtcTime`, lines 80-117)

`timeOffset` is the module-global, `none` before initialization.  A stored
offset is a `JsNum`: the subtraction `internetTime.getTime() - systemTime.getTime()`
is `NaN` when the fetched body did not parse as a date. -/

/-- A JS number that may be `NaN` (`none`). -/
abbrev JsNum := Option ℤ

/-- JS subtraction: `NaN` propagates. -/
def jsSub : JsNum → JsNum → JsNum
  | some a, some b => some (a - b)
  | _, _ => none

/-- JS addition: `NaN` propagates. -/
def jsAdd : JsNum → JsNum → JsNum
  | some a, some b => some (a + b)
  | _, _ => none

/-- `initializeTimeOffset()` (lines 82-110).  `fetch` is the outcome of the
awaited `axios.get`: `.error` is a rejected promise (timeout, network error,
HTTP error status) which lands in the `catch` block; `.ok t` is a resolved
response with `t = new Date(res.data.utc_datetime).getTime()` — `none` (NaN)
when the body is missing or malformed, since `new Date` of garbage does not
throw.  Returns the new value of the global `timeOffset`. -/
def initializeTimeOffset (timeOffset : Option JsNum) (systemTimeMs : ℤ)
    (fetch : Except String JsNum) : Option JsNum :=
  match timeOffset with
  | some o => some o
  | none =>
    match fetch with
    | .ok internetMs => some (jsSub internetMs (some systemTimeMs))
    | .error _ => some (some 0)

/-- `getCurrentUtcTime()` (lines 112-117): throws before initialization,
otherwise `Date.now() + timeOffset`. -/
def getCurrentUtcTime (timeOffset : Option JsNum) (nowMs : ℤ) : Except String JsNum :=
  match timeOffset with
  | none => .error "Time offset not initialized. Call initializeTimeOffset() first."
  | some o => .ok (jsAdd (some nowMs) o)

/-! ### File-system writes (`writeJsonFile`, lines 44-46) -/

/-- A file-system side effect. -/
inductive FsOp
  | writeFile (path : String) (contents : String)
  | rename (src dst : String)
deriving DecidableEq

/-- `writeJsonFile(filePath, data)` performs a single direct
`fs.writeFileSync(filePath, JSON.stringify(data, null, 2))`; `contents`
stands for the serialized data. -/
def writeJsonFile (filePath : String) (contents : String) : List FsOp :=
  [FsOp.writeFile filePath contents]

/-- Modelled from the spec: "writes must be atomic (write-temp-then-rename)".
An operation sequence realizes write-temp-then-rename onto `target` iff it
writes a distinct temporary file and then renames it onto the target. -/
def writeTempThenRename (ops : List FsOp) (target : String) : Prop :=
  ∃ tmp contents, tmp ≠ target ∧
    ops = [FsOp.writeFile tmp contents, FsOp.rename tmp target]

/-! ### Configuration and its signature (lines 58-77, 510-523) -/

structure SpecialPhase where
  enabled : Bool
  countdownStartMs : ℤ
  presaleStartMs : ℤ
  initialBurstMinutes : ℕ
  initialBurstCount : ℕ
deriving DecidableEq

/-- The defaulted configuration (line 510-523); transport credentials omitted. -/
structure Config where
  startMs : ℤ
  endMs : ℤ
  targetTotalUsd : ℚ
  amountPerMessageUsd : ℚ
  minPerHour : ℕ
  maxPerHour : ℕ
  tokensPerHundred : ℚ
  startRaisedUsd : ℚ
  enforceHardStopAtEnd : Bool
  specialPhase : Option SpecialPhase
deriving DecidableEq

structure SpecialPhaseSig where
  enabled : Bool
  countdownStartMs : ℤ
  presaleStartMs : ℤ
  initialBurstMinutes : ℕ
  initialBurstCount : ℕ
deriving DecidableEq

/-- The `shallow` object of `getConfigSignature` (lines 58-77).  The JS code
compares `JSON.stringify(shallow)` strings; with a fixed key order and
canonical number formatting that comparison coincides with field-wise
equality of this record. -/
structure SigData where
  startMs : ℤ
  endMs : ℤ
  targetTotalUsd : ℚ
  minPerHour : ℕ
  maxPerHour : ℕ
  amountPerMessageUsd : ℚ
  tokensPerHundred : ℚ
  enforceHardStopAtEnd : Bool
  specialPhase : Option SpecialPhaseSig
deriving DecidableEq

def getConfigSignature (config : Config) : SigData :=
  { startMs := config.startMs
    endMs := config.endMs
    targetTotalUsd := config.targetTotalUsd
    minPerHour := config.minPerHour
    maxPerHour := config.maxPerHour
    amountPerMessageUsd := config.amountPerMessageUsd
    tokensPerHundred := config.tokensPerHundred
    enforceHardStopAtEnd := config.enforceHardStopAtEnd
    specialPhase := config.specialPhase.map (fun sp =>
      { enabled := sp.enabled
        countdownStartMs := sp.countdownStartMs
        presaleStartMs := sp.presaleStartMs
        initialBurstMinutes := sp.initialBurstMinutes
        initialBurstCount := sp.initialBurstCount }) }

/-! ### CountAllocator (`generateSchedule`, lines 286-337) -/

/-- `Math.ceil(config.targetTotalUsd / amountPerMessage)` (line 290). -/
def totalMessagesNeeded (config : Config) : ℤ :=
  ratCeil (config.targetTotalUsd / config.amountPerMessageUsd)

/-- `Math.ceil((desiredEnd - start) / 3600_000)` (line 292). -/
def initialHours (config : Config) : ℤ :=
  ratCeil (((config.endMs - config.startMs : ℤ) : ℚ) / 3600000)

/-- Hour count after the capacity extension (lines 296-301). -/
def scheduleHoursZ (config : Config) : ℤ :=
  let hours := max 1 (initialHours config)
  let maxPossible := hours * (config.maxPerHour : ℤ)
  if maxPossible < totalMessagesNeeded config then
    hours + ratCeil (((totalMessagesNeeded config - maxPossible : ℤ) : ℚ) /
      (config.maxPerHour : ℚ))
  else hours

def scheduleHours (config : Config) : ℕ := (scheduleHoursZ config).toNat

/-- `perHour = weights.map(w => Math.round((w / sumWeights) * totalMessagesNeeded))`
(line 306). -/
def initialPerHour (weights : List ℚ) (total : ℤ) : List ℤ :=
  weights.map (fun w => jsRound (w / weights.sum * (total : ℚ)))

/-- The `diff > 0` reconciliation loop (lines 313-323): pour the shortfall
into hours with headroom below `maxPerHour`, visiting indices in the shuffled
order `idxs`. -/
def addLoop (maxPerHour : ℤ) : List ℕ → List ℤ → ℤ → List ℤ
  | [], perHour, _ => perHour
  | i :: rest, perHour, diff =>
    if diff ≤ 0 then perHour
    else
      let headroom := maxPerHour - perHour.getD i 0
      if 0 < headroom then
        let add := min headroom diff
        addLoop maxPerHour rest (perHour.set i (perHour.getD i 0 + add)) (diff - add)
      else addLoop maxPerHour rest perHour diff

/-- The `diff < 0` reconciliation loop (lines 324-336): remove the excess from
hours with a positive count, visiting indices in the shuffled order `idxs`. -/
def subLoop : List ℕ → List ℤ → ℤ → List ℤ
  | [], perHour, _ => perHour
  | i :: rest, perHour, remaining =>
    if remaining ≤ 0 then perHour
    else
      let reducible := max 0 (perHour.getD i 0 - 0)
      if 0 < reducible then
        let r := min reducible remaining
        subLoop rest (perHour.set i (perHour.getD i 0 - r)) (remaining - r)
      else subLoop rest perHour remaining

/-- Rounding-drift reconciliation (lines 308-337).  Note the clamp to
`maxPerHour` happens only inside `if (currentTotal !== totalMessagesNeeded)`:
when the rounded quotas already sum to the target they are returned as-is. -/
def reconcilePerHour (config : Config) (addIdxs subIdxs : List ℕ)
    (perHour0 : List ℤ) : List ℤ :=
  let total := totalMessagesNeeded config
  if perHour0.sum = total then perHour0
  else
    let perHour := perHour0.map (fun n => min n (config.maxPerHour : ℤ))
    let diff := total - perHour.sum
    if 0 < diff then addLoop (config.maxPerHour : ℤ) addIdxs perHour diff
    else if diff < 0 then subLoop subIdxs perHour (-diff)
    else perHour

/-- The per-hour quotas computed by `generateSchedule` for the given random
weights and shuffle orders. -/
def perHourQuotas (config : Config) (weights : List ℚ) (addIdxs subIdxs : List ℕ) :
    List ℤ :=
  reconcilePerHour config addIdxs subIdxs
    (initialPerHour weights (totalMessagesNeeded config))

/-! ### SecondSampler (lines 163-173 and 356-366) -/

/-- `sampleUniqueSecondsWithinHour(count)` (lines 163-173): all of `[0,3600)`
when `count ≥ 3600`, otherwise the random sorted distinct sample `pick`
(whose guaranteed properties appear as hypotheses at use sites). -/
def sampleUniqueSecondsWithinHour (pick : List ℕ) (count : ℤ) : List ℕ :=
  if 3600 ≤ count then List.range 3600 else pick

/-- `sampleUniqueSeconds(count, spanSeconds)` (lines 356-366): all of
`[0, max 1 spanSeconds)` when `count` reaches that bound, otherwise the random
sample `pick`. -/
def sampleUniqueSeconds (pick : List ℕ) (count : ℤ) (spanSeconds : ℕ) : List ℕ :=
  let mx := max 1 spanSeconds
  if (mx : ℤ) ≤ count then List.range mx else pick

/-! ### IntervalDeduplicator (`enforceUniqueIntervals`, lines 179-270) -/

/-- `floorToHourTs` (lines 179-183): `setUTCMinutes(0,0,0)` floors the
timestamp to its UTC hour boundary. -/
def floorToHourTs (timestampMs : ℤ) : ℤ := 3600000 * (timestampMs / 3600000)

/-- `secondOfHour` (lines 185-187). -/
def secondOfHour (timestampMs : ℤ) : ℤ :=
  (timestampMs - floorToHourTs timestampMs) / 1000

/-- JS `Set.add`: membership-preserving insert (sets are modelled as lists;
only membership is ever observed). -/
def usedAdd (x : ℤ) (used : List ℤ) : List ℤ := if x ∈ used then used else x :: used

/-- JS `Map.get`. -/
def mapFind (m : List (ℤ × List ℤ)) (k : ℤ) : Option (List ℤ) :=
  (m.find? (fun p => p.1 == k)).map Prod.snd

/-- JS `Map.set`. -/
def mapSet (m : List (ℤ × List ℤ)) (k : ℤ) (v : List ℤ) : List (ℤ × List ℤ) :=
  match m with
  | [] => [(k, v)]
  | p :: rest => if p.1 = k then (k, v) :: rest else p :: mapSet rest k v

/-- The `hourToSeconds` map built from the input timestamps (lines 195-200). -/
def buildHourToSeconds : List ℤ → List (ℤ × List ℤ) → List (ℤ × List ℤ)
  | [], m => m
  | t :: rest, m =>
    let k := floorToHourTs t
    let s := (mapFind m k).getD []
    buildHourToSeconds rest (mapSet m k (usedAdd (secondOfHour t) s))

/-- `Math.max(1, Math.round((ts - prev) / 1000))`: the whole-second gap
recorded in `usedIntervals`. -/
def gapSec (prev ts : ℤ) : ℤ := max 1 (jsRound (((ts - prev : ℤ) : ℚ) / 1000))

/-- One candidate-second test (the body of the inner `for (const candSec of
candidates)` loop, lines 238-247, and of the fallback scan, lines 251-260):
skip seconds occupied in this hour, skip gaps already used. -/
def tryCandidates (used usedSecs : List ℤ) (prev hourStart : ℤ) :
    List ℤ → Option (ℤ × ℤ)
  | [] => none
  | candSec :: rest =>
    if candSec ∈ usedSecs then tryCandidates used usedSecs prev hourStart rest
    else
      let candTs := hourStart + candSec * 1000
      let candDelta := gapSec prev candTs
      if candDelta ∈ used then tryCandidates used usedSecs prev hourStart rest
      else some (candSec, candDelta)

/-- The outward radius search (lines 232-248): radii `r = 1..300`, at each
radius trying `baseSec + r` (if within the upper bound) then `baseSec - r`
(if within the lower bound). -/
def radiusSearch (used usedSecs : List ℤ) (prev hourStart baseSec lbSec ubSec : ℤ) :
    ℕ → ℤ → Option (ℤ × ℤ)
  | 0, _ => none
  | fuel + 1, r =>
    let plus := baseSec + r
    let minus := baseSec - r
    let cands := (if plus ≤ ubSec then [plus] else []) ++
      (if lbSec ≤ minus then [minus] else [])
    match tryCandidates used usedSecs prev hourStart cands with
    | some res => some res
    | none => radiusSearch used usedSecs prev hourStart baseSec lbSec ubSec fuel (r + 1)

/-- The fallback linear scan over `[lbSec, ubSec]` (lines 250-261). -/
def linearScan (used usedSecs : List ℤ) (prev hourStart : ℤ) :
    ℕ → ℤ → Option (ℤ × ℤ)
  | 0, _ => none
  | fuel + 1, sec =>
    match tryCandidates used usedSecs prev hourStart [sec] with
    | some res => some res
    | none => linearScan used usedSecs prev hourStart fuel (sec + 1)

/-- The candidate search of one relocation attempt: the radius search
(lines 232-248) followed by the fallback linear scan (lines 250-261). -/
def findCandidate (used usedSecs : List ℤ) (prev hourStart baseSec lbSec ubSec : ℤ) :
    Option (ℤ × ℤ) :=
  match radiusSearch used usedSecs prev hourStart baseSec lbSec ubSec 300 1 with
  | some res => some res
  | none => linearScan used usedSecs prev hourStart (ubSec - lbSec + 1).toNat lbSec

/-- The mutable state of `enforceUniqueIntervals`' main loop. -/
structure DedupSt where
  times : List ℤ
  usedIntervals : List ℤ
  hourToSeconds : List (ℤ × List ℤ)

/-- One iteration of the main loop (lines 202-267) at index `i ≥ 1`. -/
def dedupStep (st : DedupSt) (i : ℕ) : DedupSt :=
  let prev := st.times.getD (i - 1) 0
  let curr := st.times.getD i 0
  let deltaSec := gapSec prev curr
  if deltaSec ∉ st.usedIntervals then
    { st with usedIntervals := usedAdd deltaSec st.usedIntervals }
  else
    let hourKey := floorToHourTs curr
    let hourStart := hourKey
    let hourEnd := hourStart + 3600000 - 1
    let lowerBound := max hourStart (prev + 1000)
    let upperBound := if i + 1 < st.times.length
      then min hourEnd (st.times.getD (i + 1) 0 - 1000)
      else hourEnd
    if upperBound < lowerBound then
      { st with usedIntervals := usedAdd deltaSec st.usedIntervals }
    else
      let baseSec := secondOfHour curr
      let usedSecs := ((mapFind st.hourToSeconds hourKey).getD []).erase baseSec
      let lbSec := ratCeil (((lowerBound - hourStart : ℤ) : ℚ) / 1000)
      let ubSec := ratFloor (((upperBound - hourStart : ℤ) : ℚ) / 1000)
      let next :=
        match findCandidate st.usedIntervals usedSecs prev hourStart baseSec lbSec ubSec with
        | some (candSec, candDelta) => (hourStart + candSec * 1000, candDelta)
        | none => (curr, deltaSec)
      { times := st.times.set i next.1
        usedIntervals := usedAdd next.2 st.usedIntervals
        hourToSeconds := mapSet st.hourToSeconds hourKey
          (usedAdd (secondOfHour next.1) usedSecs) }

/-- The main loop driver: indices `1, …, 1 + fuel - 1` in order. -/
def dedupGo : ℕ → ℕ → DedupSt → DedupSt
  | 0, _, st => st
  | fuel + 1, i, st => dedupGo fuel (i + 1) (dedupStep st i)

/-- `enforceUniqueIntervals` (lines 189-270), on millisecond timestamps. -/
def enforceUniqueIntervals (times : List ℤ) : List ℤ :=
  if times.length ≤ 1 then times
  else
    (dedupGo (times.length - 1) 1
      { times := times
        usedIntervals := []
        hourToSeconds := buildHourToSeconds times [] }).times

/-! ### ScheduleGenerator (lines 286-354 and 368-448) -/

/-- The program's random draws, made explicit: the per-hour weights (line
303), the two shuffled index orders (lines 314 and 326), the per-hour second
samples (line 342; indexed by hour number) and the burst second sample
(line 425). -/
structure Oracle where
  weights : List ℚ
  addIdxs : List ℕ
  subIdxs : List ℕ
  hourPicks : ℕ → List ℕ
  burstPick : List ℕ

/-- `generateSchedule` (lines 286-354): returns the deduplicated sorted
timestamp list and `effectiveEnd`. -/
def generateSchedule (o : Oracle) (config : Config) : List ℤ × ℤ :=
  let hours := scheduleHours config
  let perHour := perHourQuotas config o.weights o.addIdxs o.subIdxs
  let schedule :=
    (List.range hours).flatMap (fun h =>
      (sampleUniqueSecondsWithinHour (o.hourPicks h) (perHour.getD h 0)).map
        (fun (s : ℕ) => config.startMs + (h : ℤ) * 3600000 + (s : ℤ) * 1000))
  let sorted := List.insertionSort (· ≤ ·) schedule
  (enforceUniqueIntervals sorted, config.startMs + (hours : ℤ) * 3600000)

inductive EKind
  | countdown
  | start
  | buy
deriving DecidableEq

/-- A schedule entry `{ at, kind }`; display payloads (text, image) omitted. -/
structure SEvent where
  atMs : ℤ
  kind : EKind
deriving DecidableEq

/-- Stable sort comparator `(a, b) => new Date(a.at) - new Date(b.at)`. -/
def eventLe (a b : SEvent) : Prop := a.atMs ≤ b.atMs

instance : DecidableRel eventLe := fun a b => Int.decLe a.atMs b.atMs

instance : IsTotal SEvent eventLe := ⟨fun a b => le_total a.atMs b.atMs⟩

instance : IsTrans SEvent eventLe := ⟨fun _ _ _ h1 h2 => le_trans h1 h2⟩

/-- The countdown minutes table (lines 382-391). -/
def countdownMinutes : List ℕ := [59, 30, 15, 5, 4, 3, 2, 1]

/-- The special-phase fixed events: 8 countdown events then the `start` event
at the launch instant (lines 393-420). -/
def specialEvents (sp : SpecialPhase) : List SEvent :=
  countdownMinutes.map (fun (m : ℕ) =>
    (⟨sp.presaleStartMs - (m : ℤ) * 60000, .countdown⟩ : SEvent))
    ++ [⟨sp.presaleStartMs, .start⟩]

/-- The tail of `generateFullSchedule` (lines 437-447): generate the regular
portion when messages remain, merge, and sort. -/
def finishSchedule (o : Oracle) (config : Config) (amountPerMessage : ℚ)
    (entries : List SEvent) (remainingMessages : ℤ) (normalStart : ℤ) :
    List SEvent × ℤ :=
  if 0 < remainingMessages then
    let normalConfig :=
      { config with
        startMs := normalStart
        targetTotalUsd := (remainingMessages : ℚ) * amountPerMessage }
    let gs := generateSchedule o normalConfig
    let entries2 := List.insertionSort eventLe
      (entries ++ gs.1.map (fun t => (⟨t, .buy⟩ : SEvent)))
    (entries2, gs.2)
  else
    let entries2 := List.insertionSort eventLe entries
    (entries2, ((entries2.getLast?).map SEvent.atMs).getD config.startMs)

/-- `generateFullSchedule` (lines 368-448). -/
def generateFullSchedule (o : Oracle) (config : Config) : List SEvent × ℤ :=
  let amountPerMessage := config.amountPerMessageUsd
  let total := totalMessagesNeeded config
  match config.specialPhase with
  | some sp =>
    if sp.enabled then
      let initialBurstMinutes := if sp.initialBurstMinutes = 0 then 10
        else sp.initialBurstMinutes
      let initialBurstCount := sp.initialBurstCount
      if 0 < initialBurstCount then
        let burstStart := sp.presaleStartMs
        let burstSpanSec := initialBurstMinutes * 60
        let secs := sampleUniqueSeconds o.burstPick (initialBurstCount : ℤ) burstSpanSec
        let burstEntries := secs.map (fun (s : ℕ) =>
          (⟨burstStart + (s : ℤ) * 1000, .buy⟩ : SEvent))
        finishSchedule o config amountPerMessage (specialEvents sp ++ burstEntries)
          (total - min (initialBurstCount : ℤ) total)
          (burstStart + (burstSpanSec : ℤ) * 1000)
      else
        finishSchedule o config amountPerMessage (specialEvents sp) total
          sp.presaleStartMs
    else finishSchedule o config amountPerMessage [] total config.startMs
  | none => finishSchedule o config amountPerMessage [] total config.startMs

/-- The regular `buy` portion generated by `generateFullSchedule` when the
special phase contributes no burst: `generateSchedule` over the window
starting at the launch instant, owing the full total (lines 437-440 with
`normalStartIso = presaleStart` and unchanged `remainingMessages`). -/
def regularBuys (o : Oracle) (config : Config) (sp : SpecialPhase) : List SEvent :=
  (generateSchedule o
    { config with
      startMs := sp.presaleStartMs
      targetTotalUsd := ((totalMessagesNeeded config : ℤ) : ℚ) *
        config.amountPerMessageUsd }).1.map (fun t => (⟨t, .buy⟩ : SEvent))

/-! ### StateStore and startup (lines 547-568, 720-727) -/

structure BotState where
  configSignature : SigData
  schedule : List SEvent
  effectiveEnd : ℤ
  sentCount : ℕ
  totalUsdRaised : ℚ
  completed : Bool
deriving DecidableEq

/-- The freshly generated state (lines 550-558). -/
def freshState (config : Config) (o : Oracle) : BotState :=
  let gs := generateFullSchedule o config
  { configSignature := getConfigSignature config
    schedule := gs.1
    effectiveEnd := gs.2
    sentCount := 0
    totalUsdRaised := config.startRaisedUsd
    completed := false }

/-- The startup load-or-regenerate decision (lines 548-559). -/
def loadState (config : Config) (o : Oracle) : Option BotState → BotState
  | none => freshState config o
  | some st =>
    if st.configSignature = getConfigSignature config then st
    else freshState config o

/-- The hard-stop filter (lines 722-725). -/
def pruneSchedule (endTs : ℤ) (schedule : List SEvent) : List SEvent :=
  schedule.filter (fun e => decide (e.atMs ≤ endTs))

/-- Startup processing applied to the loaded state before the delivery loop
starts (lines 720-727). -/
def startupState (config : Config) (s : BotState) : BotState :=
  if config.enforceHardStopAtEnd then
    { s with schedule := pruneSchedule config.endMs s.schedule }
  else s

/-! ### DeliveryLoop (`sendNextIfDue`, lines 615-718)

One invocation of `sendNextIfDue` is the pure function `tick`: besides the
final in-memory state it records which schedule index (if any) the notifier
was invoked for, every `writeJsonFile(STATE_FILE, …)` payload in order, and
the `setTimeout` delay of the rescheduled tick (`none` = the function
returned without rescheduling). -/

def MAX_ALLOWED_DELAY_MS : ℤ := 30000

def defaultEvent : SEvent := ⟨0, .buy⟩

structure TickOut where
  state : BotState
  invoked : Option ℕ
  writes : List BotState
  delay : Option ℤ
deriving DecidableEq

/-- State update of a successful delivery (lines 669-670 for `buy`:
cursor + accumulated total; line 703 for `countdown`/`start`: cursor only). -/
def deliverState (amount : ℚ) (s : BotState) (e : SEvent) : BotState :=
  if e.kind = .buy then
    { s with sentCount := s.sentCount + 1, totalUsdRaised := s.totalUsdRaised + amount }
  else { s with sentCount := s.sentCount + 1 }

/-- The body of `sendNextIfDue` from the head-event read onward (lines
624-717), fuelled by the number of pending events (the skip loop advances the
cursor each iteration, so `schedule.length - sentCount` steps suffice; the
fuel-0 branch is unreachable from `tick`). -/
def tickLoop (amount : ℚ) (nowMs : ℤ) (sendOk : Bool) :
    ℕ → BotState → List BotState → TickOut
  | 0, s, ws => ⟨s, none, ws, none⟩
  | fuel + 1, s, ws =>
    if s.sentCount < s.schedule.length then
      let e := s.schedule.getD s.sentCount defaultEvent
      let msUntil := e.atMs - nowMs
      if msUntil < -MAX_ALLOWED_DELAY_MS then
        let s1 := { s with sentCount := s.sentCount + 1 }
        if s1.schedule.length ≤ s1.sentCount then
          let s2 := { s1 with completed := true }
          ⟨s2, none, ws ++ [s1, s2], none⟩
        else tickLoop amount nowMs sendOk fuel s1 (ws ++ [s1])
      else if msUntil ≤ 0 then
        if sendOk then
          let s2 := deliverState amount s e
          ⟨s2, some s.sentCount, ws ++ [s2], some 1000⟩
        else ⟨s, some s.sentCount, ws, some 1000⟩
      else ⟨s, none, ws, some (min msUntil 5000)⟩
    else ⟨s, none, ws, none⟩

/-- One invocation of `sendNextIfDue` (lines 615-718).  `sendOk` is the
outcome of the awaited `sendDiscordMessage` (`false` = it threw). -/
def tick (amount : ℚ) (nowMs : ℤ) (sendOk : Bool) (s : BotState) : TickOut :=
  if s.completed then ⟨s, none, [], none⟩
  else if s.schedule.length ≤ s.sentCount then
    let s2 := { s with completed := true }
    ⟨s2, none, [s2], none⟩
  else tickLoop amount nowMs sendOk (s.schedule.length - s.sentCount) s []

/-- The persisted states reachable from a fresh state.  `Reach … true s`:
`s` is the delivery loop's in-memory state during a run (after the startup
hard-stop processing); `Reach … false s`: `s` is a persisted, loadable state.
`init` is the write at line 559; `start`/`startWrite` are the startup
processing and its write (lines 720-727; a restart may load any previously
persisted state); `next` runs one tick; `write` persists each
`writeJsonFile` payload of a tick (lines 619, 635, 638, 708). -/
inductive Reach (config : Config) (o : Oracle) : Bool → BotState → Prop
  | init : Reach config o false (freshState config o)
  | start {s} : Reach config o false s → Reach config o true (startupState config s)
  | startWrite {s} : Reach config o false s →
      Reach config o false (startupState config s)
  | next {s} (nowMs : ℤ) (sendOk : Bool) : Reach config o true s →
      Reach config o true (tick config.amountPerMessageUsd nowMs sendOk s).state
  | write {s w} (nowMs : ℤ) (sendOk : Bool) : Reach config o true s →
      w ∈ (tick config.amountPerMessageUsd nowMs sendOk s).writes →
      Reach config o false w

/-! ### Concrete test fixtures (used by witnesses and counterexamples) -/

/-- A one-hour window owing 5 events of $100 toward $500. -/
def cfgBase : Config :=
  { startMs := 0, endMs := 3600000, targetTotalUsd := 500, amountPerMessageUsd := 100,
    minPerHour := 1, maxPerHour := 60, tokensPerHundred := 714, startRaisedUsd := 0,
    enforceHardStopAtEnd := false, specialPhase := none }

def oracleBase : Oracle :=
  { weights := [1], addIdxs := [0], subIdxs := [0],
    hourPicks := fun _ => [0, 10, 20, 30, 40], burstPick := [] }

/-- Two-hour window, 10 events, at most 5 per hour. -/
def cfgTwoHours : Config :=
  { cfgBase with
    targetTotalUsd := 1000
    maxPerHour := 5
    endMs := 7200000 }

/-- A one-event configuration ($100 toward $100). -/
def cfgOne : Config :=
  { cfgBase with targetTotalUsd := 100 }

def oracleOne : Oracle :=
  { oracleBase with hourPicks := fun _ => [0] }

/-- The in-memory state right after the single event of `cfgOne` is delivered:
cursor 1 = schedule length, `completed` still false. -/
def stateAfterOne : BotState :=
  { configSignature := getConfigSignature cfgOne
    schedule := [⟨0, .buy⟩]
    effectiveEnd := 3600000
    sentCount := 1
    totalUsdRaised := 100
    completed := false }

/-- A two-event state whose head is 50 s stale at `nowMs = 50000`. -/
def stateTwo : BotState :=
  { configSignature := getConfigSignature cfgBase
    schedule := [⟨0, .buy⟩, ⟨100000, .buy⟩]
    effectiveEnd := 3600000
    sentCount := 0
    totalUsdRaised := 0
    completed := false }

/-- Special phase launching at 7200000 with a 1-minute burst of 61 events
(more than the 60-second burst window can hold). -/
def spBurst61 : SpecialPhase :=
  { enabled := true, countdownStartMs := 0, presaleStartMs := 7200000,
    initialBurstMinutes := 1, initialBurstCount := 61 }

def cfgBurst61 : Config :=
  { cfgOne with specialPhase := some spBurst61 }

/-- Same launch, burst of 2 events (fits the window, exceeds the 1 owed). -/
def spBurst2 : SpecialPhase :=
  { spBurst61 with initialBurstCount := 2 }

def cfgBurst2 : Config :=
  { cfgOne with specialPhase := some spBurst2 }

def oracleBurst2 : Oracle :=
  { oracleBase with burstPick := [0, 37] }

/-- Special phase enabled with no burst. -/
def spNoBurst : SpecialPhase :=
  { spBurst61 with initialBurstCount := 0 }

def cfgNoBurst : Config :=
  { cfgOne with specialPhase := some spNoBurst }

def oracleNoBurst : Oracle :=
  { oracleBase with hourPicks := fun _ => [7] }

/-! ## Theorems -/

/-! ### Rational floor / ceiling bridges -/

theorem ratFloor_eq (x : ℚ) : ratFloor x = ⌊x⌋ := by
  unfold ratFloor
  exact Rat.floor_def.symm

theorem ratCeil_eq (x : ℚ) : ratCeil x = ⌈x⌉ := by
  unfold ratCeil
  rw [ratFloor_eq, Int.floor_neg, neg_neg]

theorem jsRound_eq (x : ℚ) : jsRound x = ⌊x + 1/2⌋ := by
  unfold jsRound
  exact ratFloor_eq _

theorem jsRound_nonneg {x : ℚ} (hx : 0 ≤ x) : 0 ≤ jsRound x := by
  rw [jsRound_eq]
  exact Int.le_floor.2 (by push_cast; linarith)

/-! ### C8 — TimeSource -/

/-- C8 counterexample: a *resolved* fetch whose body does not parse as a date
(`new Date(res.data.utc_datetime).getTime()` is NaN) does not land in the
`catch` block, so the offset becomes NaN — not 0 — and a later `now()` call
returns an invalid time rather than the local clock.  This refutes the claim
that "if the one-time reference-time fetch fails in any way (timeout, network
error, malformed response), initialize() still completes with offset = 0". -/
theorem c8_counterexample :
    initializeTimeOffset none 0 (.ok none) = some none ∧
    initializeTimeOffset none 0 (.ok none) ≠ some (some 0) ∧
    getCurrentUtcTime (initializeTimeOffset none 0 (.ok none)) 12345 = .ok none := by
  refine ⟨rfl, ?_, rfl⟩
  decide

/-- C8 (amended): `now()` throws before `initialize()` has completed; once the
offset is set it is never re-measured, and `now()` returns the local clock
plus that fixed offset; a *rejected* fetch (timeout, network error) is caught
and yields offset 0; but a fetch that resolves with an unparseable body
yields offset NaN, not 0 (see the counterexample). -/
theorem c8_amended :
    (∀ nowMs : ℤ, getCurrentUtcTime none nowMs =
      .error "Time offset not initialized. Call initializeTimeOffset() first.") ∧
    (∀ (o : JsNum) (systemTimeMs : ℤ) (fetch : Except String JsNum),
      initializeTimeOffset (some o) systemTimeMs fetch = some o) ∧
    (∀ (systemTimeMs : ℤ) (msg : String),
      initializeTimeOffset none systemTimeMs (.error msg) = some (some 0)) ∧
    (∀ (offsetMs nowMs : ℤ),
      getCurrentUtcTime (some (some offsetMs)) nowMs = .ok (some (nowMs + offsetMs))) :=
  ⟨fun _ => rfl, fun _ _ _ => rfl, fun _ _ => rfl, fun _ _ => rfl⟩

/-! ### C9 — state-file persistence -/

/-- C9 counterexample: `writeJsonFile` is a single direct `fs.writeFileSync`
of the target path; it is not a write-temp-then-rename sequence. -/
theorem c9_counterexample :
    ¬ writeTempThenRename (writeJsonFile "data/state.json" "{}") "data/state.json" := by
  rintro ⟨tmp, contents, hne, heq⟩
  simp [writeJsonFile] at heq

/-- C9 (amended): every persistence of the state is a single direct
whole-file write of the serialized state to the target path — no temporary
file and no rename are involved, so the write pattern by itself does not
exclude a truncated file if the process crashes mid-write. -/
theorem c9_amended (filePath contents : String) :
    writeJsonFile filePath contents = [FsOp.writeFile filePath contents] := rfl

/-! ### C5 — startup idempotence w.r.t. the configuration signature -/

/-- C5: if persisted state exists and its `configSignature` equals the current
configuration's signature, it is reused exactly as persisted (schedule,
cursor, accumulated value untouched); regeneration — with cursor 0 — happens
exactly when state is absent or the signature differs. -/
theorem c5_load_idempotent (config : Config) (o : Oracle) :
    (∀ st : BotState, st.configSignature = getConfigSignature config →
      loadState config o (some st) = st) ∧
    (∀ st : BotState, st.configSignature ≠ getConfigSignature config →
      loadState config o (some st) = freshState config o) ∧
    loadState config o none = freshState config o ∧
    (freshState config o).sentCount = 0 := by
  refine ⟨fun st h => ?_, fun st h => ?_, rfl, rfl⟩ <;> simp [loadState, h]

/-- C5 witness: reloading the freshly persisted state of a concrete
configuration returns it unchanged. -/
theorem c5_load_idempotent_witness :
    (freshState cfgBase oracleBase).configSignature = getConfigSignature cfgBase ∧
    loadState cfgBase oracleBase (some (freshState cfgBase oracleBase)) =
      freshState cfgBase oracleBase :=
  ⟨rfl, (c5_load_idempotent cfgBase oracleBase).1 _ rfl⟩

/-! ### List access helpers -/

theorem getD_set_self (l : List ℤ) (i : ℕ) (v : ℤ) (h : i < l.length) :
    (l.set i v).getD i 0 = v := by
  rw [List.getD_eq_getElem _ _ (by simpa using h)]
  exact List.getElem_set_self _

theorem getD_set_ne (v : ℤ) : ∀ (l : List ℤ) (i j : ℕ), i ≠ j →
    (l.set i v).getD j 0 = l.getD j 0 := by
  intro l
  induction l with
  | nil => intro i j _; rfl
  | cons a t ih =>
    intro i j h
    cases i with
    | zero =>
      cases j with
      | zero => exact absurd rfl h
      | succ j => simp [List.getD]
    | succ i =>
      cases j with
      | zero => simp [List.getD]
      | succ j =>
        simpa [List.getD] using ih i j (by omega)

theorem getD_mem (l : List ℤ) (i : ℕ) (h : i < l.length) : l.getD i 0 ∈ l := by
  rw [List.getD_eq_getElem _ _ h]
  exact List.getElem_mem h

theorem sum_set (v : ℤ) : ∀ (l : List ℤ) (i : ℕ), i < l.length →
    (l.set i v).sum = l.sum - l.getD i 0 + v := by
  intro l
  induction l with
  | nil => intro i h; simp at h
  | cons a t ih =>
    intro i h
    cases i with
    | zero =>
      have hz : (a :: t).set 0 v = v :: t := rfl
      have hz2 : (a :: t).getD 0 0 = a := rfl
      rw [hz, hz2, List.sum_cons, List.sum_cons]
      ring
    | succ i =>
      have ht : i < t.length := by simpa using h
      have h1 : (a :: t).set (i + 1) v = a :: t.set i v := rfl
      have h2 : (a :: t).getD (i + 1) 0 = t.getD i 0 := rfl
      rw [h1, h2, List.sum_cons, List.sum_cons, ih i ht]
      ring

/-- `(range l.length).map (l.getD · 0) = l`. -/
theorem map_range_getD : ∀ l : List ℤ,
    (List.range l.length).map (fun i => l.getD i 0) = l := by
  intro l
  induction l with
  | nil => rfl
  | cons a t ih =>
    show (List.range (t.length + 1)).map _ = _
    rw [List.range_succ_eq_map, List.map_cons, List.map_map]
    refine congrArg₂ _ rfl ?_
    calc (List.range t.length).map ((fun i => (a :: t).getD i 0) ∘ Nat.succ)
        = (List.range t.length).map (fun i => t.getD i 0) := by
          refine List.map_congr_left (fun i _ => ?_)
          simp [List.getD]
      _ = t := ih

theorem map_range_sub_sum (c : ℤ) (f : ℕ → ℤ) : ∀ n : ℕ,
    ((List.range n).map (fun i => c - f i)).sum =
      (n : ℤ) * c - ((List.range n).map f).sum := by
  intro n
  induction n with
  | zero => simp
  | succ n ih =>
    rw [List.range_succ, List.map_append, List.map_append, List.sum_append,
      List.sum_append, ih]
    push_cast
    simp only [List.map_cons, List.map_nil, List.sum_cons, List.sum_nil]
    ring

theorem map_range_headroom_sum (c : ℤ) (l : List ℤ) :
    ((List.range l.length).map (fun i => c - l.getD i 0)).sum =
      (l.length : ℤ) * c - l.sum := by
  rw [map_range_sub_sum c (fun i => l.getD i 0) l.length, map_range_getD]

/-! ### CountAllocator lemmas -/

theorem addLoop_spec (maxPerHour : ℤ) :
    ∀ (idxs : List ℕ) (per : List ℤ) (diff : ℤ),
      idxs.Nodup →
      (∀ i ∈ idxs, i < per.length) →
      (∀ x ∈ per, 0 ≤ x ∧ x ≤ maxPerHour) →
      0 ≤ diff →
      diff ≤ ((idxs.map (fun i => maxPerHour - per.getD i 0)).sum) →
      (addLoop maxPerHour idxs per diff).sum = per.sum + diff ∧
      (∀ x ∈ addLoop maxPerHour idxs per diff, 0 ≤ x ∧ x ≤ maxPerHour) ∧
      (addLoop maxPerHour idxs per diff).length = per.length := by
  intro idxs
  induction idxs with
  | nil =>
    intro per diff _ _ hb hd hs
    simp only [List.map_nil, List.sum_nil] at hs
    have : diff = 0 := le_antisymm hs hd
    subst this
    exact ⟨by simp [addLoop], by simpa [addLoop] using hb, by simp [addLoop]⟩
  | cons i rest ih =>
    intro per diff hn hi hb hd hs
    rw [addLoop]
    by_cases h0 : diff ≤ 0
    · have : diff = 0 := le_antisymm h0 hd
      subst this
      simp only [if_pos (le_refl (0:ℤ))]
      exact ⟨by ring, hb, trivial⟩
    · simp only [if_neg h0]
      have hipl : i < per.length := hi i (List.mem_cons_self i rest)
      have hcur := hb _ (getD_mem per i hipl)
      have hnr : ¬ i ∈ rest := (List.nodup_cons.1 hn).1
      have hrestsum : ∀ v : ℤ,
          (rest.map (fun j => maxPerHour - (per.set i v).getD j 0)).sum =
            (rest.map (fun j => maxPerHour - per.getD j 0)).sum := by
        intro v
        refine congrArg _ (List.map_congr_left (fun j hj => ?_))
        rw [getD_set_ne v per i j (fun h => hnr (h ▸ hj))]
      have hterm : ∀ j ∈ rest, (0:ℤ) ≤ maxPerHour - per.getD j 0 := by
        intro j hj
        have := hb _ (getD_mem per j (hi j (List.mem_cons_of_mem i hj)))
        omega
      have hrest_nonneg : (0:ℤ) ≤ (rest.map (fun j => maxPerHour - per.getD j 0)).sum :=
        List.sum_nonneg (by
          intro x hx
          obtain ⟨j, hj, rfl⟩ := List.mem_map.1 hx
          exact hterm j hj)
      simp only [List.map_cons, List.sum_cons] at hs
      by_cases hh : 0 < maxPerHour - per.getD i 0
      · simp only [if_pos hh]
        set cur := per.getD i 0 with hcurdef
        set add := min (maxPerHour - cur) diff with hadddef
        have hadd0 : 0 < add := lt_min hh (by omega)
        have haddle : add ≤ diff := min_le_right _ _
        have hset := sum_set (cur + add) per i hipl
        have hlen : (per.set i (cur + add)).length = per.length := List.length_set per i _
        have hbounds' : ∀ x ∈ per.set i (cur + add), 0 ≤ x ∧ x ≤ maxPerHour := by
          intro x hx
          rcases List.mem_or_eq_of_mem_set hx with hx' | rfl
          · exact hb x hx'
          · constructor
            · omega
            · have : add ≤ maxPerHour - cur := min_le_left _ _
              omega
        have hs' : diff - add ≤
            (rest.map (fun j => maxPerHour - (per.set i (cur + add)).getD j 0)).sum := by
          rw [hrestsum]
          rcases le_or_lt (maxPerHour - cur) diff with hc | hc
          · have : add = maxPerHour - cur := min_eq_left hc
            omega
          · have : add = diff := min_eq_right hc.le
            omega
        obtain ⟨ihsum, ihb, ihlen⟩ := ih (per.set i (cur + add)) (diff - add)
          (List.nodup_cons.1 hn).2
          (fun j hj => by rw [hlen]; exact hi j (List.mem_cons_of_mem i hj))
          hbounds' (by omega) hs'
        refine ⟨?_, ihb, by rw [ihlen, hlen]⟩
        rw [ihsum, hset]
        ring
      · simp only [if_neg hh]
        exact ih per diff (List.nodup_cons.1 hn).2
          (fun j hj => hi j (List.mem_cons_of_mem i hj)) hb hd (by omega)

theorem subLoop_spec (maxPerHour : ℤ) :
    ∀ (idxs : List ℕ) (per : List ℤ) (remaining : ℤ),
      idxs.Nodup →
      (∀ i ∈ idxs, i < per.length) →
      (∀ x ∈ per, 0 ≤ x ∧ x ≤ maxPerHour) →
      0 ≤ remaining →
      remaining ≤ ((idxs.map (fun i => per.getD i 0)).sum) →
      (subLoop idxs per remaining).sum = per.sum - remaining ∧
      (∀ x ∈ subLoop idxs per remaining, 0 ≤ x ∧ x ≤ maxPerHour) ∧
      (subLoop idxs per remaining).length = per.length := by
  intro idxs
  induction idxs with
  | nil =>
    intro per remaining _ _ hb hd hs
    simp only [List.map_nil, List.sum_nil] at hs
    have : remaining = 0 := le_antisymm hs hd
    subst this
    exact ⟨by simp [subLoop], by simpa [subLoop] using hb, by simp [subLoop]⟩
  | cons i rest ih =>
    intro per remaining hn hi hb hd hs
    rw [subLoop]
    by_cases h0 : remaining ≤ 0
    · have : remaining = 0 := le_antisymm h0 hd
      subst this
      simp only [if_pos (le_refl (0:ℤ))]
      exact ⟨by ring, hb, trivial⟩
    · simp only [if_neg h0]
      have hipl : i < per.length := hi i (List.mem_cons_self i rest)
      have hcur := hb _ (getD_mem per i hipl)
      have hnr : ¬ i ∈ rest := (List.nodup_cons.1 hn).1
      have hred : max 0 (per.getD i 0 - 0) = per.getD i 0 := by omega
      rw [hred]
      have hterm : ∀ j ∈ rest, (0:ℤ) ≤ per.getD j 0 := by
        intro j hj
        exact (hb _ (getD_mem per j (hi j (List.mem_cons_of_mem i hj)))).1
      have hrest_nonneg : (0:ℤ) ≤ (rest.map (fun j => per.getD j 0)).sum :=
        List.sum_nonneg (by
          intro x hx
          obtain ⟨j, hj, rfl⟩ := List.mem_map.1 hx
          exact hterm j hj)
      simp only [List.map_cons, List.sum_cons] at hs
      by_cases hh : 0 < per.getD i 0
      · simp only [if_pos hh]
        set cur := per.getD i 0 with hcurdef
        set r := min cur remaining with hrdef
        have hr0 : 0 < r := lt_min hh (by omega)
        have hrle : r ≤ remaining := min_le_right _ _
        have hset := sum_set (cur - r) per i hipl
        have hlen : (per.set i (cur - r)).length = List.length per := List.length_set per i _
        have hrestsum :
            (rest.map (fun j => (per.set i (cur - r)).getD j 0)).sum =
              (rest.map (fun j => per.getD j 0)).sum := by
          refine congrArg _ (List.map_congr_left (fun j hj => ?_))
          rw [getD_set_ne (cur - r) per i j (fun h => hnr (h ▸ hj))]
        have hbounds' : ∀ x ∈ per.set i (cur - r), 0 ≤ x ∧ x ≤ maxPerHour := by
          intro x hx
          rcases List.mem_or_eq_of_mem_set hx with hx' | rfl
          · exact hb x hx'
          · have : r ≤ cur := min_le_left _ _
            omega
        have hs' : remaining - r ≤ (rest.map (fun j => (per.set i (cur - r)).getD j 0)).sum := by
          rw [hrestsum]
          rcases le_or_lt cur remaining with hc | hc
          · have : r = cur := min_eq_left hc
            omega
          · have : r = remaining := min_eq_right hc.le
            omega
        obtain ⟨ihsum, ihb, ihlen⟩ := ih (per.set i (cur - r)) (remaining - r)
          (List.nodup_cons.1 hn).2
          (fun j hj => by rw [hlen]; exact hi j (List.mem_cons_of_mem i hj))
          hbounds' (by omega) hs'
        refine ⟨?_, ihb, by rw [ihlen, hlen]⟩
        rw [ihsum, hset]
        ring
      · simp only [if_neg hh]
        exact ih per remaining (List.nodup_cons.1 hn).2
          (fun j hj => hi j (List.mem_cons_of_mem i hj)) hb hd (by omega)

theorem totalMessagesNeeded_pos (config : Config) (hT : 0 < config.targetTotalUsd)
    (hA : 0 < config.amountPerMessageUsd) : 0 < totalMessagesNeeded config := by
  unfold totalMessagesNeeded
  rw [ratCeil_eq]
  exact Int.ceil_pos.2 (div_pos hT hA)

theorem scheduleHoursZ_pos (config : Config) : 1 ≤ scheduleHoursZ config := by
  have h1 : 1 ≤ max 1 (initialHours config) := le_max_left _ _
  by_cases h : max 1 (initialHours config) * (config.maxPerHour : ℤ) <
      totalMessagesNeeded config
  · have hd : (0:ℤ) < totalMessagesNeeded config -
        max 1 (initialHours config) * (config.maxPerHour : ℤ) := by omega
    have hc : 0 ≤ ratCeil (((totalMessagesNeeded config -
        max 1 (initialHours config) * (config.maxPerHour : ℤ) : ℤ) : ℚ) /
        (config.maxPerHour : ℚ)) := by
      rw [ratCeil_eq]
      refine Int.ceil_nonneg (div_nonneg ?_ ?_)
      · exact_mod_cast hd.le
      · positivity
    simp only [scheduleHoursZ, if_pos h]
    omega
  · simp only [scheduleHoursZ, if_neg h]
    exact h1

theorem scheduleHoursZ_capacity (config : Config) (hmax : 1 ≤ config.maxPerHour) :
    totalMessagesNeeded config ≤ scheduleHoursZ config * (config.maxPerHour : ℤ) := by
  have hM1 : (1:ℤ) ≤ (config.maxPerHour : ℤ) := by exact_mod_cast hmax
  by_cases h : max 1 (initialHours config) * (config.maxPerHour : ℤ) <
      totalMessagesNeeded config
  · simp only [scheduleHoursZ, if_pos h]
    set d := totalMessagesNeeded config -
      max 1 (initialHours config) * (config.maxPerHour : ℤ) with hd
    have hd0 : 0 < d := by omega
    have hMQ : (0:ℚ) < (config.maxPerHour : ℚ) := by
      have : (0:ℤ) < (config.maxPerHour : ℤ) := by omega
      exact_mod_cast this
    have hceil : (d : ℚ) ≤ (ratCeil ((d : ℚ) / (config.maxPerHour : ℚ)) : ℚ) *
        (config.maxPerHour : ℚ) := by
      rw [ratCeil_eq]
      have hle := Int.le_ceil ((d : ℚ) / (config.maxPerHour : ℚ))
      calc (d : ℚ) = (d : ℚ) / (config.maxPerHour : ℚ) * (config.maxPerHour : ℚ) := by
            field_simp
        _ ≤ (⌈(d : ℚ) / (config.maxPerHour : ℚ)⌉ : ℚ) * (config.maxPerHour : ℚ) :=
            mul_le_mul_of_nonneg_right hle hMQ.le
    have hZ : d ≤ ratCeil ((d : ℚ) / (config.maxPerHour : ℚ)) * (config.maxPerHour : ℤ) := by
      exact_mod_cast hceil
    nlinarith [hZ]
  · simp only [scheduleHoursZ, if_neg h]
    omega

theorem scheduleHours_cast (config : Config) :
    (scheduleHours config : ℤ) = scheduleHoursZ config :=
  Int.toNat_of_nonneg (by linarith [scheduleHoursZ_pos config])

theorem initialPerHour_nonneg (weights : List ℚ) (total : ℤ)
    (hpos : ∀ w ∈ weights, 0 < w) (htot : 0 ≤ total) :
    ∀ q ∈ initialPerHour weights total, 0 ≤ q := by
  intro q hq
  obtain ⟨w, hw, rfl⟩ := List.mem_map.1 hq
  apply jsRound_nonneg
  have hws : 0 ≤ weights.sum := List.sum_nonneg (fun x hx => (hpos x hx).le)
  exact mul_nonneg (div_nonneg (hpos w hw).le hws) (by exact_mod_cast htot)

theorem reconcilePerHour_spec (config : Config) (addIdxs subIdxs : List ℕ)
    (P0 : List ℤ)
    (hmax : 1 ≤ config.maxPerHour)
    (hlen : P0.length = scheduleHours config)
    (hP0 : ∀ q ∈ P0, 0 ≤ q)
    (htot : 0 < totalMessagesNeeded config)
    (hcap : totalMessagesNeeded config ≤
      (scheduleHours config : ℤ) * (config.maxPerHour : ℤ))
    (hadd : addIdxs.Perm (List.range (scheduleHours config)))
    (hsub : subIdxs.Perm (List.range (scheduleHours config))) :
    (reconcilePerHour config addIdxs subIdxs P0).sum = totalMessagesNeeded config ∧
    (∀ q ∈ reconcilePerHour config addIdxs subIdxs P0, 0 ≤ q) ∧
    (P0.sum ≠ totalMessagesNeeded config →
      ∀ q ∈ reconcilePerHour config addIdxs subIdxs P0, q ≤ (config.maxPerHour : ℤ)) := by
  set T := totalMessagesNeeded config with hT
  set M := (config.maxPerHour : ℤ) with hM
  set n := scheduleHours config with hn
  unfold reconcilePerHour
  rw [← hT]
  by_cases hsum : P0.sum = T
  · simp only [if_pos hsum]
    exact ⟨hsum, hP0, fun hne => absurd hsum hne⟩
  · simp only [if_neg hsum]
    set per := P0.map (fun q => min q M) with hper
    have hperlen : per.length = n := by rw [hper, List.length_map, hlen]
    have hperb : ∀ x ∈ per, 0 ≤ x ∧ x ≤ M := by
      intro x hx
      obtain ⟨q, hq, rfl⟩ := List.mem_map.1 hx
      refine ⟨le_min (hP0 q hq) ?_, min_le_right _ _⟩
      rw [hM]
      positivity
    have hMb : (1:ℤ) ≤ M := by rw [hM]; exact_mod_cast hmax
    have haddnd : addIdxs.Nodup := hadd.symm.nodup (List.nodup_range n)
    have hsubnd : subIdxs.Nodup := hsub.symm.nodup (List.nodup_range n)
    have haddmem : ∀ i ∈ addIdxs, i < per.length := by
      intro i hi
      rw [hperlen]
      exact List.mem_range.1 (hadd.mem_iff.1 hi)
    have hsubmem : ∀ i ∈ subIdxs, i < per.length := by
      intro i hi
      rw [hperlen]
      exact List.mem_range.1 (hsub.mem_iff.1 hi)
    have hheadroom : ((addIdxs.map (fun i => M - per.getD i 0)).sum) =
        (n : ℤ) * M - per.sum := by
      rw [(hadd.map (fun i => M - per.getD i 0)).sum_eq]
      rw [← hperlen, map_range_headroom_sum, hperlen]
    have hvals : ((subIdxs.map (fun i => per.getD i 0)).sum) = per.sum := by
      rw [(hsub.map (fun i => per.getD i 0)).sum_eq]
      rw [← hperlen, map_range_getD]
    by_cases hdiff : 0 < T - per.sum
    · simp only [if_pos hdiff]
      obtain ⟨rsum, rb, _⟩ := addLoop_spec M addIdxs per (T - per.sum) haddnd haddmem
        hperb hdiff.le (by rw [hheadroom]; omega)
      refine ⟨by rw [rsum]; ring, fun q hq => (rb q hq).1, fun _ q hq => (rb q hq).2⟩
    · simp only [if_neg hdiff]
      by_cases hdiff2 : T - per.sum < 0
      · simp only [if_pos hdiff2]
        obtain ⟨rsum, rb, _⟩ := subLoop_spec M subIdxs per (-(T - per.sum)) hsubnd
          hsubmem hperb (by omega) (by rw [hvals]; omega)
        refine ⟨by rw [rsum]; ring, fun q hq => (rb q hq).1, fun _ q hq => (rb q hq).2⟩
      · simp only [if_neg hdiff2]
        refine ⟨by omega, fun q hq => (hperb q hq).1, fun _ q hq => (hperb q hq).2⟩

/-- C1 (amended): for every valid configuration and every draw of positive
weights and shuffled index orders, the per-hour quotas are integers summing
exactly to `ceil(targetTotalUsd / amountPerMessageUsd)` and are all
non-negative; they are moreover all `≤ maxPerHour` *provided the initial
rounded allocation does not already sum to the target* — when it does, the
code (line 309) skips the clamping pass entirely and a quota may exceed
`maxPerHour` (see the counterexample).  The claim's unconditional
`quota ≤ maxPerHour` is corrected to this conditional form. -/
theorem c1_amended (config : Config) (weights : List ℚ) (addIdxs subIdxs : List ℕ)
    (hT : 0 < config.targetTotalUsd) (hA : 0 < config.amountPerMessageUsd)
    (hmax : 1 ≤ config.maxPerHour)
    (hw : weights.length = scheduleHours config)
    (hpos : ∀ w ∈ weights, 0 < w)
    (hadd : addIdxs.Perm (List.range (scheduleHours config)))
    (hsub : subIdxs.Perm (List.range (scheduleHours config))) :
    (perHourQuotas config weights addIdxs subIdxs).sum = totalMessagesNeeded config ∧
    (∀ q ∈ perHourQuotas config weights addIdxs subIdxs, 0 ≤ q) ∧
    ((initialPerHour weights (totalMessagesNeeded config)).sum ≠
        totalMessagesNeeded config →
      ∀ q ∈ perHourQuotas config weights addIdxs subIdxs,
        q ≤ (config.maxPerHour : ℤ)) := by
  have htot := totalMessagesNeeded_pos config hT hA
  have hcap : totalMessagesNeeded config ≤
      (scheduleHours config : ℤ) * (config.maxPerHour : ℤ) := by
    rw [scheduleHours_cast]
    exact scheduleHoursZ_capacity config hmax
  exact reconcilePerHour_spec config addIdxs subIdxs _ hmax
    (by rw [initialPerHour, List.length_map, hw])
    (initialPerHour_nonneg weights _ hpos htot.le)
    htot hcap hadd hsub

/-- C1 counterexample: a valid two-hour configuration (`targetTotalUsd = 1000`,
`amountPerMessageUsd = 100`, `maxPerHour = 5`, so 10 messages with capacity
exactly 10) and the realizable weight draw `[3, 2]` make the initial rounding
produce `[6, 4]`, which already sums to 10, so the clamp is skipped and the
first hour's quota 6 exceeds `maxPerHour = 5`.  This refutes the claim that
every individual quota is `≤ maxPerHour`. -/
theorem c1_counterexample :
    0 < cfgTwoHours.targetTotalUsd ∧ 0 < cfgTwoHours.amountPerMessageUsd ∧
    1 ≤ cfgTwoHours.maxPerHour ∧
    [(3:ℚ), 2].length = scheduleHours cfgTwoHours ∧
    (∀ w ∈ [(3:ℚ), 2], 0 < w) ∧
    [0, 1].Perm (List.range (scheduleHours cfgTwoHours)) ∧
    perHourQuotas cfgTwoHours [3, 2] [0, 1] [0, 1] = [6, 4] ∧
    ¬ ((6:ℤ) ≤ (cfgTwoHours.maxPerHour : ℤ)) := by
  decide

/-- C1 witness: instantiating the amended theorem at the same concrete
configuration. -/
theorem c1_amended_witness :
    (0 < cfgTwoHours.targetTotalUsd ∧ 0 < cfgTwoHours.amountPerMessageUsd ∧
      1 ≤ cfgTwoHours.maxPerHour ∧ [(3:ℚ), 2].length = scheduleHours cfgTwoHours ∧
      (∀ w ∈ [(3:ℚ), 2], 0 < w) ∧
      [0, 1].Perm (List.range (scheduleHours cfgTwoHours)) ∧
      [1, 0].Perm (List.range (scheduleHours cfgTwoHours))) ∧
    ((perHourQuotas cfgTwoHours [3, 2] [0, 1] [1, 0]).sum =
        totalMessagesNeeded cfgTwoHours ∧
      (∀ q ∈ perHourQuotas cfgTwoHours [3, 2] [0, 1] [1, 0], 0 ≤ q) ∧
      ((initialPerHour [(3:ℚ), 2] (totalMessagesNeeded cfgTwoHours)).sum ≠
          totalMessagesNeeded cfgTwoHours →
        ∀ q ∈ perHourQuotas cfgTwoHours [3, 2] [0, 1] [1, 0],
          q ≤ (cfgTwoHours.maxPerHour : ℤ))) :=
  ⟨by decide,
    c1_amended cfgTwoHours [3, 2] [0, 1] [1, 0] (by decide) (by decide) (by decide)
      (by decide) (by decide) (by decide) (by decide)⟩

/-! ### Delivery-loop lemmas -/

theorem pruneSchedule_idem (endTs : ℤ) (l : List SEvent) :
    pruneSchedule endTs (pruneSchedule endTs l) = pruneSchedule endTs l := by
  unfold pruneSchedule
  rw [List.filter_filter]
  simp

/-- The `writes` accumulator of `tickLoop` is a pure prefix. -/
theorem tickLoop_writes_acc (amount : ℚ) (nowMs : ℤ) (sendOk : Bool) :
    ∀ (fuel : ℕ) (s : BotState) (ws : List BotState),
      tickLoop amount nowMs sendOk fuel s ws =
        ⟨(tickLoop amount nowMs sendOk fuel s []).state,
         (tickLoop amount nowMs sendOk fuel s []).invoked,
         ws ++ (tickLoop amount nowMs sendOk fuel s []).writes,
         (tickLoop amount nowMs sendOk fuel s []).delay⟩ := by
  intro fuel
  induction fuel with
  | zero => intro s ws; simp [tickLoop]
  | succ fuel ih =>
    intro s ws
    simp only [tickLoop]
    split
    case isTrue h1 =>
      split
      case isTrue h2 =>
        split
        case isTrue h3 => simp
        case isFalse h3 =>
          rw [ih _ (ws ++ [_]), ih _ ([] ++ [_])]
          simp
      case isFalse h2 =>
        split
        case isTrue h3 =>
          split
          case isTrue h4 => simp
          case isFalse h4 => simp
        case isFalse h3 => simp
    case isFalse h1 => simp

/-- Any index handed to the notifier is at least the entry cursor. -/
theorem tickLoop_invoked_ge (amount : ℚ) (nowMs : ℤ) (sendOk : Bool) :
    ∀ (fuel : ℕ) (s : BotState) (ws : List BotState) (j : ℕ),
      (tickLoop amount nowMs sendOk fuel s ws).invoked = some j →
      s.sentCount ≤ j := by
  intro fuel
  induction fuel with
  | zero => intro s ws j h; simp [tickLoop] at h
  | succ fuel ih =>
    intro s ws j h
    simp only [tickLoop] at h
    split at h
    case isTrue h1 =>
      split at h
      case isTrue h2 =>
        split at h
        case isTrue h3 => simp at h
        case isFalse h3 =>
          have h' : s.sentCount + 1 ≤ j := ih _ _ _ h
          omega
      case isFalse h2 =>
        split at h
        case isTrue h3 =>
          split at h
          case isTrue h4 =>
            have h' : some s.sentCount = some j := h
            have h2' := Option.some.inj h'
            omega
          case isFalse h4 =>
            have h' : some s.sentCount = some j := h
            have h2' := Option.some.inj h'
            omega
        case isFalse h3 => simp at h
    case isFalse h1 => simp at h

/-- Schedule preservation and the cursor/completed invariant through one
`tickLoop` run, for the final state and for every written payload. -/
theorem tickLoop_props (amount : ℚ) (nowMs : ℤ) (sendOk : Bool) :
    ∀ (fuel : ℕ) (s : BotState) (ws : List BotState),
      s.completed = false →
      s.sentCount ≤ s.schedule.length →
      (tickLoop amount nowMs sendOk fuel s ws).state.schedule = s.schedule ∧
      (tickLoop amount nowMs sendOk fuel s ws).state.sentCount ≤ s.schedule.length ∧
      ((tickLoop amount nowMs sendOk fuel s ws).state.completed = true →
        (tickLoop amount nowMs sendOk fuel s ws).state.sentCount = s.schedule.length) ∧
      (∀ w ∈ (tickLoop amount nowMs sendOk fuel s ws).writes, w ∈ ws ∨
        (w.schedule = s.schedule ∧ w.sentCount ≤ s.schedule.length ∧
          (w.completed = true → w.sentCount = s.schedule.length))) := by
  intro fuel
  induction fuel with
  | zero =>
    intro s ws hc hle
    refine ⟨rfl, hle, ?_, fun w hw => Or.inl hw⟩
    intro h
    have h' : s.completed = true := h
    rw [hc] at h'
    exact (Bool.false_ne_true h').elim
  | succ fuel ih =>
    intro s ws hc hle
    simp only [tickLoop]
    split
    case isTrue h1 =>
      split
      case isTrue h2 =>
        split
        case isTrue h3 =>
          have h3' : s.schedule.length ≤ s.sentCount + 1 := h3
          have hEq : s.sentCount + 1 = s.schedule.length := by omega
          refine ⟨rfl, le_of_eq hEq, fun _ => hEq, ?_⟩
          intro w hw
          simp only [List.mem_append, List.mem_cons, List.mem_singleton,
            List.not_mem_nil, or_false] at hw
          rcases hw with hw | hw | hw
          · exact Or.inl hw
          · subst hw
            refine Or.inr ⟨rfl, le_of_eq hEq, fun h => ?_⟩
            have h' : s.completed = true := h
            rw [hc] at h'
            exact (Bool.false_ne_true h').elim
          · subst hw
            exact Or.inr ⟨rfl, le_of_eq hEq, fun _ => hEq⟩
        case isFalse h3 =>
          have h3' : ¬ s.schedule.length ≤ s.sentCount + 1 := h3
          obtain ⟨ihsch, ihle, ihcomp, ihw⟩ := ih
            { s with sentCount := s.sentCount + 1 } (ws ++ [_]) hc
            (by show s.sentCount + 1 ≤ s.schedule.length; omega)
          refine ⟨ihsch, ihle, ihcomp, ?_⟩
          intro w hw
          rcases ihw w hw with hw2 | hw2
          · simp only [List.mem_append, List.mem_singleton] at hw2
            rcases hw2 with hw2 | hw2
            · exact Or.inl hw2
            · subst hw2
              refine Or.inr ⟨rfl, ?_, fun h => ?_⟩
              · show s.sentCount + 1 ≤ s.schedule.length
                omega
              · have h' : s.completed = true := h
                rw [hc] at h'
                exact (Bool.false_ne_true h').elim
          · exact Or.inr hw2
      case isFalse h2 =>
        split
        case isTrue h3 =>
          split
          case isTrue h4 =>
            have hcomp : (deliverState amount s
                (s.schedule.getD s.sentCount defaultEvent)).completed = false := by
              unfold deliverState
              split <;> exact hc
            have hcnt : (deliverState amount s
                (s.schedule.getD s.sentCount defaultEvent)).sentCount =
                  s.sentCount + 1 := by
              unfold deliverState
              split <;> rfl
            have hsch : (deliverState amount s
                (s.schedule.getD s.sentCount defaultEvent)).schedule = s.schedule := by
              unfold deliverState
              split <;> rfl
            refine ⟨hsch, ?_, ?_, ?_⟩
            · show (deliverState amount s
                (s.schedule.getD s.sentCount defaultEvent)).sentCount ≤
                  s.schedule.length
              omega
            · intro h
              rw [hcomp] at h
              exact (Bool.false_ne_true h).elim
            · intro w hw
              simp only [List.mem_append, List.mem_singleton] at hw
              rcases hw with hw | hw
              · exact Or.inl hw
              · subst hw
                refine Or.inr ⟨hsch, by omega, fun h => ?_⟩
                rw [hcomp] at h
                exact (Bool.false_ne_true h).elim
          case isFalse h4 =>
            refine ⟨rfl, hle, ?_, fun w hw => Or.inl hw⟩
            intro h
            have h' : s.completed = true := h
            rw [hc] at h'
            exact (Bool.false_ne_true h').elim
        case isFalse h3 =>
          refine ⟨rfl, hle, ?_, fun w hw => Or.inl hw⟩
          intro h
          have h' : s.completed = true := h
          rw [hc] at h'
          exact (Bool.false_ne_true h').elim
    case isFalse h1 =>
      refine ⟨rfl, hle, ?_, fun w hw => Or.inl hw⟩
      intro h
      have h' : s.completed = true := h
      rw [hc] at h'
      exact (Bool.false_ne_true h').elim

/-- Evolution of `totalUsdRaised` through one `tickLoop` run: unchanged
unless the notifier was invoked successfully for a `buy` event, in which case
it grows by exactly `amount`. -/
theorem tickLoop_total (amount : ℚ) (nowMs : ℤ) (sendOk : Bool) :
    ∀ (fuel : ℕ) (s : BotState) (ws : List BotState),
      ((tickLoop amount nowMs sendOk fuel s ws).invoked = none →
        (tickLoop amount nowMs sendOk fuel s ws).state.totalUsdRaised =
          s.totalUsdRaised) ∧
      (∀ j, (tickLoop amount nowMs sendOk fuel s ws).invoked = some j →
        ((sendOk = true ∧ (s.schedule.getD j defaultEvent).kind = .buy →
          (tickLoop amount nowMs sendOk fuel s ws).state.totalUsdRaised =
            s.totalUsdRaised + amount) ∧
         (sendOk = false ∨ (s.schedule.getD j defaultEvent).kind ≠ .buy →
          (tickLoop amount nowMs sendOk fuel s ws).state.totalUsdRaised =
            s.totalUsdRaised))) := by
  intro fuel
  induction fuel with
  | zero => intro s ws; exact ⟨fun _ => rfl, fun j h => by simp [tickLoop] at h⟩
  | succ fuel ih =>
    intro s ws
    simp only [tickLoop]
    split
    case isTrue h1 =>
      split
      case isTrue h2 =>
        split
        case isTrue h3 => exact ⟨fun _ => rfl, fun j h => by simp at h⟩
        case isFalse h3 =>
          obtain ⟨ihnone, ihsome⟩ := ih { s with sentCount := s.sentCount + 1 } (ws ++ [_])
          refine ⟨fun h => ihnone h, fun j h => ?_⟩
          have := ihsome j h
          exact this
      case isFalse h2 =>
        split
        case isTrue h3 =>
          split
          case isTrue h4 =>
            refine ⟨fun h => by simp at h, fun j h => ?_⟩
            have hj : s.sentCount = j := Option.some.inj h
            subst hj
            constructor
            · rintro ⟨-, hbuy⟩
              show (deliverState amount s
                (s.schedule.getD s.sentCount defaultEvent)).totalUsdRaised =
                  s.totalUsdRaised + amount
              unfold deliverState
              rw [if_pos hbuy]
            · rintro (hok | hbuy)
              · rw [h4] at hok; cases hok
              · show (deliverState amount s
                  (s.schedule.getD s.sentCount defaultEvent)).totalUsdRaised =
                    s.totalUsdRaised
                unfold deliverState
                rw [if_neg hbuy]
          case isFalse h4 =>
            refine ⟨fun h => by simp at h, fun j h => ?_⟩
            refine ⟨fun hc => ?_, fun _ => rfl⟩
            rcases hc with ⟨hok, -⟩
            exact absurd hok h4
        case isFalse h3 => exact ⟨fun _ => rfl, fun j h => by simp at h⟩
    case isFalse h1 => exact ⟨fun _ => rfl, fun j h => by simp at h⟩

theorem bool_false_elim {C : Prop} (h : false = true) : C := (Bool.false_ne_true h).elim

theorem bool_true_elim {C : Prop} (h : true = false) : C :=
  (Bool.false_ne_true h.symm).elim

theorem bool_eq_false_of_ne_true {b : Bool} (h : ¬ b = true) : b = false := by
  cases b
  · rfl
  · exact absurd rfl h

/-- `tick` wrapper for `tickLoop_props`. -/
theorem tick_props (amount : ℚ) (nowMs : ℤ) (sendOk : Bool) (s : BotState)
    (hle : s.sentCount ≤ s.schedule.length)
    (hcomp : s.completed = true → s.sentCount = s.schedule.length) :
    (tick amount nowMs sendOk s).state.schedule = s.schedule ∧
    (tick amount nowMs sendOk s).state.sentCount ≤ s.schedule.length ∧
    ((tick amount nowMs sendOk s).state.completed = true →
      (tick amount nowMs sendOk s).state.sentCount = s.schedule.length) ∧
    (∀ w ∈ (tick amount nowMs sendOk s).writes, w.schedule = s.schedule ∧
      w.sentCount ≤ s.schedule.length ∧
      (w.completed = true → w.sentCount = s.schedule.length)) := by
  unfold tick
  split
  case isTrue hc =>
    exact ⟨rfl, hle, fun _ => hcomp hc, fun w hw => by simp at hw⟩
  case isFalse hc =>
    have hc' : s.completed = false := bool_eq_false_of_ne_true hc
    split
    case isTrue hl =>
      have hEq : s.sentCount = s.schedule.length := le_antisymm hle hl
      refine ⟨rfl, le_of_eq hEq, fun _ => hEq, ?_⟩
      intro w hw
      simp only [List.mem_singleton] at hw
      subst hw
      exact ⟨rfl, le_of_eq hEq, fun _ => hEq⟩
    case isFalse hl =>
      obtain ⟨hsch, hle', hcomp', hw⟩ := tickLoop_props amount nowMs sendOk
        (s.schedule.length - s.sentCount) s [] hc' hle
      refine ⟨hsch, hle', hcomp', ?_⟩
      intro w hmem
      rcases hw w hmem with h | h
      · simp at h
      · exact h

/-- `tick` wrapper for `tickLoop_total`. -/
theorem tick_total (amount : ℚ) (nowMs : ℤ) (sendOk : Bool) (s : BotState) :
    ((tick amount nowMs sendOk s).invoked = none →
      (tick amount nowMs sendOk s).state.totalUsdRaised = s.totalUsdRaised) ∧
    (∀ j, (tick amount nowMs sendOk s).invoked = some j →
      ((sendOk = true ∧ (s.schedule.getD j defaultEvent).kind = .buy →
        (tick amount nowMs sendOk s).state.totalUsdRaised =
          s.totalUsdRaised + amount) ∧
       (sendOk = false ∨ (s.schedule.getD j defaultEvent).kind ≠ .buy →
        (tick amount nowMs sendOk s).state.totalUsdRaised = s.totalUsdRaised))) := by
  unfold tick
  split
  case isTrue hc => exact ⟨fun _ => rfl, fun j h => by simp at h⟩
  case isFalse hc =>
    split
    case isTrue hl => exact ⟨fun _ => rfl, fun j h => by simp at h⟩
    case isFalse hl => exact tickLoop_total amount nowMs sendOk _ s []

/-- The master invariant over all reachable states: the cursor stays within
the schedule, `completed` implies the cursor is at the end, and (when the
hard-stop flag is set) every in-run schedule is pruning-fixed. -/
theorem reach_inv (config : Config) (o : Oracle) :
    ∀ (b : Bool) (s : BotState), Reach config o b s →
      (s.sentCount ≤ s.schedule.length ∧
        (s.completed = true → s.sentCount = s.schedule.length)) ∧
      (config.enforceHardStopAtEnd = true →
        ((b = true → pruneSchedule config.endMs s.schedule = s.schedule) ∧
         (b = false → s.sentCount = 0 ∨
            pruneSchedule config.endMs s.schedule = s.schedule))) := by
  have hstep : ∀ s0 : BotState,
      (s0.sentCount ≤ s0.schedule.length ∧
        (s0.completed = true → s0.sentCount = s0.schedule.length)) ∧
      (config.enforceHardStopAtEnd = true →
        (s0.sentCount = 0 ∨ pruneSchedule config.endMs s0.schedule = s0.schedule)) →
      ((startupState config s0).sentCount ≤ (startupState config s0).schedule.length ∧
        ((startupState config s0).completed = true →
          (startupState config s0).sentCount =
            (startupState config s0).schedule.length)) ∧
      (config.enforceHardStopAtEnd = true →
        pruneSchedule config.endMs (startupState config s0).schedule =
          (startupState config s0).schedule) := by
    intro s0 ⟨ih1, ih2⟩
    by_cases hflag : config.enforceHardStopAtEnd = true
    · have hss : startupState config s0 =
          { s0 with schedule := pruneSchedule config.endMs s0.schedule } := by
        unfold startupState
        rw [if_pos hflag]
      rw [hss]
      rcases ih2 hflag with hzero | hfix
      · refine ⟨⟨?_, ?_⟩, fun _ => ?_⟩
        · show s0.sentCount ≤ (pruneSchedule config.endMs s0.schedule).length
          rw [hzero]
          exact Nat.zero_le _
        · intro hcomp
          have hcomp' : s0.completed = true := hcomp
          have hlen0 := ih1.2 hcomp'
          rw [hzero] at hlen0
          have hnil : s0.schedule = [] := List.length_eq_zero.1 hlen0.symm
          show s0.sentCount = (pruneSchedule config.endMs s0.schedule).length
          rw [hnil, hzero]
          rfl
        · show pruneSchedule config.endMs (pruneSchedule config.endMs s0.schedule) =
            pruneSchedule config.endMs s0.schedule
          exact pruneSchedule_idem _ _
      · refine ⟨⟨?_, ?_⟩, fun _ => ?_⟩
        · show s0.sentCount ≤ (pruneSchedule config.endMs s0.schedule).length
          rw [hfix]
          exact ih1.1
        · intro hcomp
          have hcomp' : s0.completed = true := hcomp
          show s0.sentCount = (pruneSchedule config.endMs s0.schedule).length
          rw [hfix]
          exact ih1.2 hcomp'
        · show pruneSchedule config.endMs (pruneSchedule config.endMs s0.schedule) =
            pruneSchedule config.endMs s0.schedule
          exact pruneSchedule_idem _ _
    · have hss : startupState config s0 = s0 := by
        unfold startupState
        rw [if_neg hflag]
      rw [hss]
      exact ⟨ih1, fun hf => absurd hf hflag⟩
  intro b s h
  induction h with
  | init =>
    constructor
    · constructor
      · exact Nat.zero_le _
      · intro hcomp
        have h0 : (freshState config o).completed = false := rfl
        rw [h0] at hcomp
        cases hcomp
    · intro _
      exact ⟨fun hb => bool_false_elim hb, fun _ => Or.inl rfl⟩
  | @start s0 _ ih =>
    have res := hstep s0 ⟨ih.1, fun hf => (ih.2 hf).2 rfl⟩
    exact ⟨res.1, fun hf => ⟨fun _ => res.2 hf, fun hb => bool_true_elim hb⟩⟩
  | @startWrite s0 _ ih =>
    have res := hstep s0 ⟨ih.1, fun hf => (ih.2 hf).2 rfl⟩
    exact ⟨res.1, fun hf => ⟨fun hb => bool_false_elim hb, fun _ => Or.inr (res.2 hf)⟩⟩
  | @next s0 nowMs sendOk _ ih =>
    obtain ⟨hsch, hle', hcomp', _⟩ := tick_props config.amountPerMessageUsd nowMs sendOk s0
      ih.1.1 ih.1.2
    constructor
    · exact ⟨by rw [hsch]; exact hle', fun hcomp => by rw [hsch]; exact hcomp' hcomp⟩
    · intro hflag
      refine ⟨fun _ => ?_, fun hb => bool_true_elim hb⟩
      rw [hsch]
      exact (ih.2 hflag).1 rfl
  | @write s0 w nowMs sendOk _ hmem ih =>
    obtain ⟨_, _, _, hw⟩ := tick_props config.amountPerMessageUsd nowMs sendOk s0
      ih.1.1 ih.1.2
    obtain ⟨hwsch, hwle, hwcomp⟩ := hw w hmem
    constructor
    · exact ⟨by rw [hwsch]; exact hwle, fun hcomp => by rw [hwsch]; exact hwcomp hcomp⟩
    · intro hflag
      refine ⟨fun hb => bool_false_elim hb, fun _ => Or.inr ?_⟩
      rw [hwsch]
      exact (ih.2 hflag).1 rfl

/-- C2 (amended): every persisted state reachable from a fresh state through
the delivery-loop operations satisfies `0 ≤ cursor ≤ length(schedule)` and
`completed → cursor = length(schedule)` (the converse direction of the
claimed `⇔` fails: after the final successful delivery the state is persisted
with `cursor = length` but `completed` still false, see the counterexample —
`completed` is only set on the next tick); and across any single tick,
`totalUsdRaised` changes only when the notifier was invoked successfully for
a `kind = buy` event, in which case it increases by exactly
`amountPerMessageUsd`, and is unchanged otherwise. -/
theorem c2_amended (config : Config) (o : Oracle) :
    (∀ s : BotState, Reach config o false s →
      (0 ≤ s.sentCount ∧ s.sentCount ≤ s.schedule.length) ∧
      (s.completed = true → s.sentCount = s.schedule.length)) ∧
    (∀ (nowMs : ℤ) (sendOk : Bool) (s : BotState),
      ((tick config.amountPerMessageUsd nowMs sendOk s).invoked = none →
        (tick config.amountPerMessageUsd nowMs sendOk s).state.totalUsdRaised =
          s.totalUsdRaised) ∧
      (∀ j, (tick config.amountPerMessageUsd nowMs sendOk s).invoked = some j →
        ((sendOk = true ∧ (s.schedule.getD j defaultEvent).kind = .buy →
          (tick config.amountPerMessageUsd nowMs sendOk s).state.totalUsdRaised =
            s.totalUsdRaised + config.amountPerMessageUsd) ∧
         (sendOk = false ∨ (s.schedule.getD j defaultEvent).kind ≠ .buy →
          (tick config.amountPerMessageUsd nowMs sendOk s).state.totalUsdRaised =
            s.totalUsdRaised)))) :=
  ⟨fun s h =>
    ⟨⟨Nat.zero_le _, (reach_inv config o false s h).1.1⟩,
      (reach_inv config o false s h).1.2⟩,
   fun nowMs sendOk s => tick_total config.amountPerMessageUsd nowMs sendOk s⟩

/-- C2 counterexample: with the one-event configuration `cfgOne`, delivering
the single event at its exact due time persists a state with
`cursor = length(schedule) = 1` and `completed = false` — reachable and
persisted, refuting `completed ⇔ cursor = length(schedule)` (the `completed`
flag is only set by the *next* tick). -/
theorem c2_counterexample :
    Reach cfgOne oracleOne false stateAfterOne ∧
    stateAfterOne.sentCount = stateAfterOne.schedule.length ∧
    stateAfterOne.completed = false := by
  refine ⟨?_, by decide, by decide⟩
  refine Reach.write (w := stateAfterOne) 0 true (Reach.start Reach.init) ?_
  decide

/-- C2 witness: the amended invariant instantiated at the freshly persisted
state of a concrete configuration. -/
theorem c2_amended_witness :
    (0 ≤ (freshState cfgOne oracleOne).sentCount ∧
      (freshState cfgOne oracleOne).sentCount ≤
        (freshState cfgOne oracleOne).schedule.length) ∧
    ((freshState cfgOne oracleOne).completed = true →
      (freshState cfgOne oracleOne).sentCount =
        (freshState cfgOne oracleOne).schedule.length) :=
  (c2_amended cfgOne oracleOne).1 (freshState cfgOne oracleOne) Reach.init

theorem tick_unfold_pending (amount : ℚ) (nowMs : ℤ) (sendOk : Bool) (s : BotState)
    (hc : s.completed = false) (hlen : s.sentCount < s.schedule.length) :
    tick amount nowMs sendOk s =
      tickLoop amount nowMs sendOk (s.schedule.length - s.sentCount) s [] := by
  unfold tick
  rw [if_neg (by rw [hc]; exact Bool.false_ne_true), if_neg (by omega)]

/-- One unfolding of `tickLoop` when the head event is stale. -/
theorem tickLoop_stale_step (amount : ℚ) (nowMs : ℤ) (sendOk : Bool) (fuel : ℕ)
    (s : BotState) (ws : List BotState)
    (hlen : s.sentCount < s.schedule.length)
    (hstale : (s.schedule.getD s.sentCount defaultEvent).atMs - nowMs <
      -MAX_ALLOWED_DELAY_MS) :
    tickLoop amount nowMs sendOk (fuel + 1) s ws =
      if s.schedule.length ≤ s.sentCount + 1 then
        ⟨{ s with sentCount := s.sentCount + 1, completed := true }, none,
          ws ++ [{ s with sentCount := s.sentCount + 1 },
                 { s with sentCount := s.sentCount + 1, completed := true }], none⟩
      else tickLoop amount nowMs sendOk fuel { s with sentCount := s.sentCount + 1 }
        (ws ++ [{ s with sentCount := s.sentCount + 1 }]) := by
  simp only [tickLoop]
  rw [if_pos hlen, if_pos hstale]

/-- One unfolding of `tickLoop` when the head event is due (inside the 30 s
window). -/
theorem tickLoop_due_step (amount : ℚ) (nowMs : ℤ) (sendOk : Bool) (fuel : ℕ)
    (s : BotState) (ws : List BotState)
    (hlen : s.sentCount < s.schedule.length)
    (hnstale : ¬ ((s.schedule.getD s.sentCount defaultEvent).atMs - nowMs <
      -MAX_ALLOWED_DELAY_MS))
    (hdue : (s.schedule.getD s.sentCount defaultEvent).atMs - nowMs ≤ 0) :
    tickLoop amount nowMs sendOk (fuel + 1) s ws =
      if sendOk then
        ⟨deliverState amount s (s.schedule.getD s.sentCount defaultEvent),
          some s.sentCount,
          ws ++ [deliverState amount s (s.schedule.getD s.sentCount defaultEvent)],
          some 1000⟩
      else ⟨s, some s.sentCount, ws, some 1000⟩ := by
  simp only [tickLoop]
  rw [if_pos hlen, if_neg hnstale, if_pos hdue]

/-- C3: when the delivery loop evaluates a head event more than 30 s stale,
the event is permanently skipped: the cursor advances, the advanced state is
persisted (it heads the write list), the tick continues exactly as a tick
started from the advanced state (immediate re-evaluation within the same
tick), and the notifier is never invoked for the skipped index; when the head
event is between 30 s late and exactly due, the notifier is invoked for it. -/
theorem c3_stale_skip_due_deliver (amount : ℚ) (nowMs : ℤ) (sendOk : Bool)
    (s : BotState) (hc : s.completed = false)
    (hlen : s.sentCount < s.schedule.length) :
    (((s.schedule.getD s.sentCount defaultEvent).atMs - nowMs < -MAX_ALLOWED_DELAY_MS) →
      tick amount nowMs sendOk s =
        ⟨(tick amount nowMs sendOk { s with sentCount := s.sentCount + 1 }).state,
         (tick amount nowMs sendOk { s with sentCount := s.sentCount + 1 }).invoked,
         { s with sentCount := s.sentCount + 1 } ::
           (tick amount nowMs sendOk { s with sentCount := s.sentCount + 1 }).writes,
         (tick amount nowMs sendOk { s with sentCount := s.sentCount + 1 }).delay⟩ ∧
      (tick amount nowMs sendOk s).invoked ≠ some s.sentCount) ∧
    ((-MAX_ALLOWED_DELAY_MS ≤ (s.schedule.getD s.sentCount defaultEvent).atMs - nowMs ∧
        (s.schedule.getD s.sentCount defaultEvent).atMs - nowMs ≤ 0) →
      (tick amount nowMs sendOk s).invoked = some s.sentCount) := by
  obtain ⟨k, hk⟩ : ∃ k, s.schedule.length - s.sentCount = k + 1 :=
    ⟨s.schedule.length - s.sentCount - 1, by omega⟩
  have hunf := tick_unfold_pending amount nowMs sendOk s hc hlen
  have hcompbump : ({ s with sentCount := s.sentCount + 1 } : BotState).completed =
    false := hc
  constructor
  · intro hstale
    have hL0 := tickLoop_stale_step amount nowMs sendOk k s [] hlen hstale
    by_cases hend : s.schedule.length ≤ s.sentCount + 1
    · -- the skipped event was the last one: the loop marks completion
      have hL : tick amount nowMs sendOk s =
          ⟨{ s with sentCount := s.sentCount + 1, completed := true }, none,
            [{ s with sentCount := s.sentCount + 1 },
             { s with sentCount := s.sentCount + 1, completed := true }], none⟩ := by
        rw [hunf, hk, hL0, if_pos hend]
        rfl
      have hR : tick amount nowMs sendOk { s with sentCount := s.sentCount + 1 } =
          ⟨{ s with sentCount := s.sentCount + 1, completed := true }, none,
            [{ s with sentCount := s.sentCount + 1, completed := true }], none⟩ := by
        unfold tick
        rw [if_neg (by rw [hcompbump]; exact Bool.false_ne_true)]
        rw [if_pos (show ({ s with sentCount := s.sentCount + 1 } :
          BotState).schedule.length ≤
            ({ s with sentCount := s.sentCount + 1 } : BotState).sentCount from hend)]
      refine ⟨?_, ?_⟩
      · rw [hL, hR]
      · rw [hL]
        simp
    · -- events remain after the skip: the loop continues from the bumped state
      have hR : tick amount nowMs sendOk { s with sentCount := s.sentCount + 1 } =
          tickLoop amount nowMs sendOk (s.schedule.length - (s.sentCount + 1))
            { s with sentCount := s.sentCount + 1 } [] :=
        tick_unfold_pending amount nowMs sendOk _ hcompbump
          (show s.sentCount + 1 < s.schedule.length by omega)
      have hkk : s.schedule.length - (s.sentCount + 1) = k := by omega
      have hL : tick amount nowMs sendOk s =
          tickLoop amount nowMs sendOk k { s with sentCount := s.sentCount + 1 }
            ([] ++ [{ s with sentCount := s.sentCount + 1 }]) := by
        rw [hunf, hk, hL0, if_neg hend]
      refine ⟨?_, ?_⟩
      · rw [hL, tickLoop_writes_acc, hR, hkk]
        rfl
      · rw [hL, tickLoop_writes_acc]
        intro hbad
        have hbad' : (tickLoop amount nowMs sendOk k
            { s with sentCount := s.sentCount + 1 } []).invoked =
              some s.sentCount := hbad
        have hge := tickLoop_invoked_ge amount nowMs sendOk k
          { s with sentCount := s.sentCount + 1 } [] s.sentCount hbad'
        have hge' : s.sentCount + 1 ≤ s.sentCount := hge
        omega
  · rintro ⟨hdue1, hdue2⟩
    rw [hunf, hk, tickLoop_due_step amount nowMs sendOk k s [] hlen (by omega) hdue2]
    by_cases hok : sendOk = true
    · rw [if_pos hok]
    · rw [if_neg hok]

/-- C3 witness: a two-event state whose head (due at 0) is 50 s stale at
`nowMs = 50000`. -/
theorem c3_stale_skip_due_deliver_witness :
    (stateTwo.completed = false ∧ stateTwo.sentCount < stateTwo.schedule.length) ∧
    ((((stateTwo.schedule.getD stateTwo.sentCount defaultEvent).atMs - 50000 <
        -MAX_ALLOWED_DELAY_MS) →
      tick 100 50000 true stateTwo =
        ⟨(tick 100 50000 true { stateTwo with sentCount := stateTwo.sentCount + 1 }).state,
         (tick 100 50000 true { stateTwo with sentCount := stateTwo.sentCount + 1 }).invoked,
         { stateTwo with sentCount := stateTwo.sentCount + 1 } ::
           (tick 100 50000 true
             { stateTwo with sentCount := stateTwo.sentCount + 1 }).writes,
         (tick 100 50000 true
           { stateTwo with sentCount := stateTwo.sentCount + 1 }).delay⟩ ∧
      (tick 100 50000 true stateTwo).invoked ≠ some stateTwo.sentCount) ∧
    ((-MAX_ALLOWED_DELAY_MS ≤
        (stateTwo.schedule.getD stateTwo.sentCount defaultEvent).atMs - 50000 ∧
        (stateTwo.schedule.getD stateTwo.sentCount defaultEvent).atMs - 50000 ≤ 0) →
      (tick 100 50000 true stateTwo).invoked = some stateTwo.sentCount)) :=
  ⟨⟨by decide, by decide⟩,
    c3_stale_skip_due_deliver 100 50000 true stateTwo (by decide) (by decide)⟩

/-- C4: when the head event is due (within the 30 s window) and the notifier
send throws, the tick leaves the state exactly unchanged, performs no state
write, reports the attempted index, and reschedules after the fixed
1-second delay (a retry of the same event). -/
theorem c4_failure_no_advance (amount : ℚ) (nowMs : ℤ) (s : BotState)
    (hc : s.completed = false) (hlen : s.sentCount < s.schedule.length)
    (hdue1 : -MAX_ALLOWED_DELAY_MS ≤
      (s.schedule.getD s.sentCount defaultEvent).atMs - nowMs)
    (hdue2 : (s.schedule.getD s.sentCount defaultEvent).atMs - nowMs ≤ 0) :
    tick amount nowMs false s = ⟨s, some s.sentCount, [], some 1000⟩ := by
  obtain ⟨k, hk⟩ : ∃ k, s.schedule.length - s.sentCount = k + 1 :=
    ⟨s.schedule.length - s.sentCount - 1, by omega⟩
  rw [tick_unfold_pending amount nowMs false s hc hlen, hk,
    tickLoop_due_step amount nowMs false k s [] hlen (by omega) hdue2]
  rw [if_neg (by simp)]

/-- C4 witness: a pending head event due exactly now, with a failing send. -/
theorem c4_failure_no_advance_witness :
    (stateTwo.completed = false ∧ stateTwo.sentCount < stateTwo.schedule.length ∧
      -MAX_ALLOWED_DELAY_MS ≤
        (stateTwo.schedule.getD stateTwo.sentCount defaultEvent).atMs - 0 ∧
      (stateTwo.schedule.getD stateTwo.sentCount defaultEvent).atMs - 0 ≤ 0) ∧
    tick 100 0 false stateTwo = ⟨stateTwo, some stateTwo.sentCount, [], some 1000⟩ :=
  ⟨⟨by decide, by decide, by decide, by decide⟩,
    c4_failure_no_advance 100 0 stateTwo (by decide) (by decide) (by decide) (by decide)⟩

/-! ### IntervalDeduplicator lemmas -/

theorem floorToHourTs_le (t : ℤ) : floorToHourTs t ≤ t := by
  unfold floorToHourTs
  omega

theorem lt_floorToHourTs_add (t : ℤ) : t < floorToHourTs t + 3600000 := by
  unfold floorToHourTs
  omega

theorem floorToHourTs_add (q d : ℤ) (h0 : 0 ≤ d) (h1 : d < 3600000) :
    floorToHourTs (floorToHourTs q + d) = floorToHourTs q := by
  unfold floorToHourTs
  omega

theorem secondOfHour_spec (t : ℤ) :
    0 ≤ secondOfHour t ∧ secondOfHour t ≤ 3599 ∧
    floorToHourTs t + secondOfHour t * 1000 ≤ t ∧
    t < floorToHourTs t + secondOfHour t * 1000 + 1000 := by
  unfold secondOfHour floorToHourTs
  omega

theorem ratFloor_intCast_div_1000 (a : ℤ) : ratFloor ((a : ℚ) / 1000) = a / 1000 := by
  rw [ratFloor_eq]
  rw [show ((1000 : ℚ)) = ((1000 : ℕ) : ℚ) by norm_num]
  rw [Rat.floor_intCast_div_natCast]
  norm_num

theorem ratCeil_intCast_div_1000 (a : ℤ) : ratCeil ((a : ℚ) / 1000) = -((-a) / 1000) := by
  unfold ratCeil
  rw [show (-((a : ℚ) / 1000)) = (((-a : ℤ) : ℚ) / 1000) by push_cast; ring]
  rw [ratFloor_intCast_div_1000]

theorem tryCandidates_mem (used usedSecs : List ℤ) (prev hourStart : ℤ) :
    ∀ (cands : List ℤ) (c d : ℤ),
      tryCandidates used usedSecs prev hourStart cands = some (c, d) → c ∈ cands := by
  intro cands
  induction cands with
  | nil => intro c d h; simp [tryCandidates] at h
  | cons a rest ih =>
    intro c d h
    simp only [tryCandidates] at h
    split at h
    · exact List.mem_cons_of_mem a (ih c d h)
    · split at h
      · exact List.mem_cons_of_mem a (ih c d h)
      · have h' : (a, gapSec prev (hourStart + a * 1000)) = (c, d) := Option.some.inj h
        have ha : a = c := congrArg Prod.fst h'
        rw [ha]
        exact List.mem_cons_self _ _

theorem radiusSearch_sound (used usedSecs : List ℤ) (prev hourStart baseSec lbSec ubSec : ℤ) :
    ∀ (fuel : ℕ) (r c d : ℤ), 1 ≤ r →
      radiusSearch used usedSecs prev hourStart baseSec lbSec ubSec fuel r = some (c, d) →
      (baseSec < c ∧ c ≤ ubSec) ∨ (lbSec ≤ c ∧ c < baseSec) := by
  intro fuel
  induction fuel with
  | zero => intro r c d _ h; simp [radiusSearch] at h
  | succ fuel ih =>
    intro r c d hr h
    rw [radiusSearch] at h
    split at h
    case h_1 res heq =>
      obtain rfl : res = (c, d) := Option.some.inj h
      have hmem := tryCandidates_mem used usedSecs prev hourStart _ c d heq
      rw [List.mem_append] at hmem
      rcases hmem with hmem | hmem
      · split at hmem
        case isTrue hplus =>
          rcases List.mem_singleton.1 hmem with rfl
          exact Or.inl ⟨by omega, hplus⟩
        case isFalse => simp at hmem
      · split at hmem
        case isTrue hminus =>
          rcases List.mem_singleton.1 hmem with rfl
          exact Or.inr ⟨hminus, by omega⟩
        case isFalse => simp at hmem
    case h_2 => exact ih (r + 1) c d (by omega) h

theorem linearScan_sound (used usedSecs : List ℤ) (prev hourStart : ℤ) :
    ∀ (fuel : ℕ) (sec c d : ℤ),
      linearScan used usedSecs prev hourStart fuel sec = some (c, d) →
      sec ≤ c ∧ c < sec + fuel := by
  intro fuel
  induction fuel with
  | zero => intro sec c d h; simp [linearScan] at h
  | succ fuel ih =>
    intro sec c d h
    rw [linearScan] at h
    split at h
    case h_1 res heq =>
      obtain rfl : res = (c, d) := Option.some.inj h
      have hmem := tryCandidates_mem used usedSecs prev hourStart _ c d heq
      rcases List.mem_singleton.1 hmem with rfl
      constructor
      · omega
      · push_cast
        omega
    case h_2 =>
      have := ih (sec + 1) c d h
      constructor
      · omega
      · push_cast at this ⊢
        omega

theorem findCandidate_sound (used usedSecs : List ℤ)
    (prev hourStart baseSec lbSec ubSec c d : ℤ)
    (h : findCandidate used usedSecs prev hourStart baseSec lbSec ubSec = some (c, d)) :
    (baseSec < c ∧ c ≤ ubSec) ∨ (lbSec ≤ c ∧ c < baseSec) ∨
      (lbSec ≤ c ∧ c ≤ ubSec) := by
  unfold findCandidate at h
  split at h
  case h_1 res heq =>
    obtain rfl : res = (c, d) := Option.some.inj h
    rcases radiusSearch_sound used usedSecs prev hourStart baseSec lbSec ubSec
      300 1 c d (by omega) heq with h' | h'
    · exact Or.inl h'
    · exact Or.inr (Or.inl h')
  case h_2 =>
    have := linearScan_sound used usedSecs prev hourStart _ lbSec c d h
    refine Or.inr (Or.inr ⟨this.1, ?_⟩)
    omega

/-- The effect of one `dedupStep` on the `times` array: only index `i` can
change, and a relocated value lands strictly after its left neighbour, in the
same hour bucket, and no later than its (original) right neighbour. -/
theorem dedupStep_times (st : DedupSt) (i : ℕ) (h1 : 1 ≤ i)
    (hlen : i < st.times.length)
    (hsorted : ∀ j, j + 1 < st.times.length →
      st.times.getD j 0 ≤ st.times.getD (j+1) 0) :
    (dedupStep st i).times.length = st.times.length ∧
    (∀ j, j ≠ i → (dedupStep st i).times.getD j 0 = st.times.getD j 0) ∧
    ((dedupStep st i).times.getD i 0 = st.times.getD i 0 ∨
      (st.times.getD (i-1) 0 < (dedupStep st i).times.getD i 0 ∧
       floorToHourTs ((dedupStep st i).times.getD i 0) =
         floorToHourTs (st.times.getD i 0) ∧
       (i + 1 < st.times.length →
         (dedupStep st i).times.getD i 0 ≤ st.times.getD (i+1) 0))) := by
  have hprev : st.times.getD (i-1) 0 ≤ st.times.getD i 0 := by
    have h := hsorted (i-1) (by omega)
    rwa [show i - 1 + 1 = i by omega] at h
  simp only [dedupStep]
  set prev := st.times.getD (i - 1) 0 with hprevdef
  set curr := st.times.getD i 0 with hcurrdef
  set H := floorToHourTs curr with hHdef
  set B := secondOfHour curr with hBdef
  by_cases hA : gapSec prev curr ∉ st.usedIntervals
  · rw [if_pos hA]
    exact ⟨rfl, fun j _ => rfl, Or.inl rfl⟩
  · rw [if_neg hA]
    set U := if i + 1 < st.times.length
      then min (H + 3600000 - 1) (st.times.getD (i + 1) 0 - 1000)
      else H + 3600000 - 1 with hUdef
    by_cases hB : U < max H (prev + 1000)
    · rw [if_pos hB]
      exact ⟨rfl, fun j _ => rfl, Or.inl rfl⟩
    · rw [if_neg hB]
      set S := ((mapFind st.hourToSeconds H).getD []).erase B with hSdef
      set L := ratCeil (((max H (prev + 1000) - H : ℤ) : ℚ) / 1000) with hLdef
      set Ub := ratFloor (((U - H : ℤ) : ℚ) / 1000) with hUbdef
      have hLval : L = -(-(max H (prev + 1000) - H) / 1000) := by
        rw [hLdef]
        exact ratCeil_intCast_div_1000 _
      have hUbval : Ub = (U - H) / 1000 := by
        rw [hUbdef]
        exact ratFloor_intCast_div_1000 _
      obtain ⟨hB0, hB3599, hBle, hBlt⟩ := secondOfHour_spec curr
      have hMfacts : H ≤ max H (prev + 1000) ∧ prev + 1000 ≤ max H (prev + 1000) ∧
          (max H (prev + 1000) = H ∨ max H (prev + 1000) = prev + 1000) :=
        ⟨le_max_left _ _, le_max_right _ _, max_choice _ _⟩
      have hUle : U ≤ H + 3600000 - 1 := by
        rw [hUdef]
        split
        · exact min_le_left _ _
        · exact le_refl _
      have hUnext : i + 1 < st.times.length → U ≤ st.times.getD (i + 1) 0 - 1000 := by
        intro hnext
        rw [hUdef, if_pos hnext]
        exact min_le_right _ _
      have hcurrnext : i + 1 < st.times.length → curr ≤ st.times.getD (i + 1) 0 :=
        fun hnext => hsorted i hnext
      cases hfc : findCandidate st.usedIntervals S prev H B L Ub with
      | none =>
        refine ⟨List.length_set _ _ _, fun j hj => getD_set_ne _ _ _ _ (fun h => hj h.symm),
          Or.inl ?_⟩
        exact getD_set_self _ _ _ hlen
      | some cd =>
        obtain ⟨c, d⟩ := cd
        have hsound := findCandidate_sound st.usedIntervals S prev H B L Ub c d hfc
        have hc3599 : 0 ≤ c ∧ c ≤ 3599 := by
          rcases hsound with ⟨hc1, hc2⟩ | ⟨hc1, hc2⟩ | ⟨hc1, hc2⟩ <;>
            rcases hMfacts with ⟨hm1, hm2, hm3 | hm3⟩ <;> omega
        have hvgt : prev < H + c * 1000 := by
          rcases hsound with ⟨hc1, hc2⟩ | ⟨hc1, hc2⟩ | ⟨hc1, hc2⟩ <;>
            rcases hMfacts with ⟨hm1, hm2, hm3 | hm3⟩ <;> omega
        have hvnext : i + 1 < st.times.length →
            H + c * 1000 ≤ st.times.getD (i + 1) 0 := by
          intro hnext
          have h5 := hUnext hnext
          have h6 := hcurrnext hnext
          rcases hsound with ⟨hc1, hc2⟩ | ⟨hc1, hc2⟩ | ⟨hc1, hc2⟩ <;> omega
        refine ⟨List.length_set _ _ _, fun j hj => getD_set_ne _ _ _ _ (fun h => hj h.symm),
          Or.inr ?_⟩
        rw [getD_set_self _ _ _ hlen]
        refine ⟨hvgt, ?_, hvnext⟩
        rw [hHdef]
        exact floorToHourTs_add curr (c * 1000) (by omega) (by omega)

theorem dedupGo_invariant (orig : List ℤ) :
    ∀ (fuel i : ℕ) (st : DedupSt),
      1 ≤ i → fuel + i ≤ orig.length →
      st.times.length = orig.length →
      (∀ j, i ≤ j → st.times.getD j 0 = orig.getD j 0) →
      (∀ j, j + 1 < st.times.length → st.times.getD j 0 ≤ st.times.getD (j+1) 0) →
      (∀ j, floorToHourTs (st.times.getD j 0) = floorToHourTs (orig.getD j 0)) →
      (dedupGo fuel i st).times.length = orig.length ∧
      (∀ j, j + 1 < (dedupGo fuel i st).times.length →
        (dedupGo fuel i st).times.getD j 0 ≤ (dedupGo fuel i st).times.getD (j+1) 0) ∧
      (∀ j, floorToHourTs ((dedupGo fuel i st).times.getD j 0) =
        floorToHourTs (orig.getD j 0)) ∧
      (dedupGo fuel i st).times.getD 0 0 = st.times.getD 0 0 := by
  intro fuel
  induction fuel with
  | zero =>
    intro i st _ _ hlen hsuffix hsorted hbucket
    exact ⟨hlen, hsorted, hbucket, rfl⟩
  | succ fuel ih =>
    intro i st hi hfuel hlen hsuffix hsorted hbucket
    have hilen : i < st.times.length := by omega
    obtain ⟨slen, sother, sval⟩ := dedupStep_times st i hi hilen hsorted
    have hcurr : st.times.getD i 0 = orig.getD i 0 := hsuffix i le_rfl
    have hhead0 : (dedupStep st i).times.getD 0 0 = st.times.getD 0 0 :=
      sother 0 (by omega)
    have hsuffix' : ∀ j, i + 1 ≤ j → (dedupStep st i).times.getD j 0 = orig.getD j 0 := by
      intro j hj
      rw [sother j (by omega)]
      exact hsuffix j (by omega)
    have hsorted' : ∀ j, j + 1 < (dedupStep st i).times.length →
        (dedupStep st i).times.getD j 0 ≤ (dedupStep st i).times.getD (j+1) 0 := by
      intro j hj
      rw [slen] at hj
      by_cases hji : j = i
      · subst hji
        rw [sother (j+1) (by omega)]
        rcases sval with hv | ⟨-, -, hvnext⟩
        · rw [hv]
          exact hsorted j hj
        · exact hvnext hj
      · by_cases hji1 : j + 1 = i
        · rw [sother j (by omega)]
          subst hji1
          rcases sval with hv | ⟨hvgt, -, -⟩
          · rw [hv]
            exact hsorted j hj
          · rw [show j + 1 - 1 = j by omega] at hvgt
            exact le_of_lt hvgt
        · rw [sother j (by omega), sother (j+1) (by omega)]
          exact hsorted j hj
    have hbucket' : ∀ j, floorToHourTs ((dedupStep st i).times.getD j 0) =
        floorToHourTs (orig.getD j 0) := by
      intro j
      by_cases hji : j = i
      · subst hji
        rcases sval with hv | ⟨-, hvb, -⟩
        · rw [hv, hcurr]
        · rw [hvb, hcurr]
      · rw [sother j (by omega)]
        exact hbucket j
    rw [show dedupGo (fuel+1) i st = dedupGo fuel (i+1) (dedupStep st i) from rfl]
    obtain ⟨r1, r2, r3, r4⟩ := ih (i+1) (dedupStep st i) (by omega) (by omega)
      (by rw [slen, hlen]) hsuffix' hsorted' hbucket'
    exact ⟨r1, r2, r3, by rw [r4, hhead0]⟩

theorem chain'_iff_getD (l : List ℤ) :
    List.Chain' (· ≤ ·) l ↔
      ∀ j, j + 1 < l.length → l.getD j 0 ≤ l.getD (j+1) 0 := by
  rw [List.chain'_iff_get]
  constructor
  · intro h j hj
    have h2 := h j (by omega)
    rwa [List.getD_eq_getElem _ _ (by omega), List.getD_eq_getElem _ _ (by omega)]
  · intro h j hj
    have h2 := h j (by omega)
    rwa [List.getD_eq_getElem _ _ (by omega), List.getD_eq_getElem _ _ (by omega)] at h2

theorem map_floorToHourTs_eq (l1 l2 : List ℤ) (hlen : l1.length = l2.length)
    (h : ∀ j, floorToHourTs (l1.getD j 0) = floorToHourTs (l2.getD j 0)) :
    l1.map floorToHourTs = l2.map floorToHourTs := by
  refine List.ext_getElem (by simp [hlen]) ?_
  intro n h1 h2
  simp only [List.getElem_map]
  have h3 := h n
  rwa [List.getD_eq_getElem _ _ (by simpa using h1),
    List.getD_eq_getElem _ _ (by simp at h2 ⊢; omega)] at h3

theorem enforceUniqueIntervals_spec (times : List ℤ)
    (hsorted : ∀ j, j + 1 < times.length → times.getD j 0 ≤ times.getD (j+1) 0) :
    (enforceUniqueIntervals times).length = times.length ∧
    (∀ j, j + 1 < (enforceUniqueIntervals times).length →
      (enforceUniqueIntervals times).getD j 0 ≤
        (enforceUniqueIntervals times).getD (j+1) 0) ∧
    (∀ j, floorToHourTs ((enforceUniqueIntervals times).getD j 0) =
      floorToHourTs (times.getD j 0)) ∧
    (enforceUniqueIntervals times).getD 0 0 = times.getD 0 0 := by
  unfold enforceUniqueIntervals
  by_cases hshort : times.length ≤ 1
  · rw [if_pos hshort]
    exact ⟨rfl, hsorted, fun j => rfl, rfl⟩
  · rw [if_neg hshort]
    obtain ⟨hlen, hsort, hbucket, hhead⟩ := dedupGo_invariant times (times.length - 1) 1
      { times := times, usedIntervals := [],
        hourToSeconds := buildHourToSeconds times [] }
      le_rfl (by omega) rfl (fun j _ => rfl) hsorted (fun j => rfl)
    exact ⟨hlen, hsort, hbucket, hhead⟩

/-- C6: on a sorted input, `enforceUniqueIntervals` returns a sequence of the
same length, still sorted non-decreasing, with every timestamp still in its
original hour bucket; it is total (defined for every input), so when no
collision-free relocation exists it still returns (accepting the duplicate
gap) rather than failing or dropping an event. -/
theorem c6_dedup_preserves (times : List ℤ)
    (hsorted : List.Chain' (· ≤ ·) times) :
    (enforceUniqueIntervals times).length = times.length ∧
    List.Chain' (· ≤ ·) (enforceUniqueIntervals times) ∧
    (enforceUniqueIntervals times).map floorToHourTs =
      times.map floorToHourTs := by
  rw [chain'_iff_getD] at hsorted
  obtain ⟨hlen, hsort, hbucket, -⟩ := enforceUniqueIntervals_spec times hsorted
  exact ⟨hlen, by rw [chain'_iff_getD]; exact hsort,
    map_floorToHourTs_eq _ _ hlen hbucket⟩

/-- C6 witness: the two-element sorted input `[0, 1000]`. -/
theorem c6_dedup_preserves_witness :
    List.Chain' (· ≤ ·) [(0:ℤ), 1000] ∧
    ((enforceUniqueIntervals [(0:ℤ), 1000]).length = [(0:ℤ), 1000].length ∧
      List.Chain' (· ≤ ·) (enforceUniqueIntervals [(0:ℤ), 1000]) ∧
      (enforceUniqueIntervals [(0:ℤ), 1000]).map floorToHourTs =
        [(0:ℤ), 1000].map floorToHourTs) :=
  ⟨by simp [List.chain'_cons, List.chain'_singleton],
    c6_dedup_preserves [(0:ℤ), 1000]
      (by simp [List.chain'_cons, List.chain'_singleton])⟩

/-! ### ScheduleGenerator lemmas -/

theorem sorted_getD_zero_le (l : List ℤ)
    (hs : ∀ j, j + 1 < l.length → l.getD j 0 ≤ l.getD (j+1) 0) :
    ∀ j, j < l.length → l.getD 0 0 ≤ l.getD j 0 := by
  intro j
  induction j with
  | zero => intro _; exact le_rfl
  | succ j ihj =>
    intro hj
    exact le_trans (ihj (by omega)) (hs j (by omega))

theorem generateSchedule_spec (o : Oracle) (config : Config) :
    (∀ j, j + 1 < (generateSchedule o config).1.length →
      (generateSchedule o config).1.getD j 0 ≤
        (generateSchedule o config).1.getD (j+1) 0) ∧
    (∀ t ∈ (generateSchedule o config).1, config.startMs ≤ t) := by
  unfold generateSchedule
  set raw := (List.range (scheduleHours config)).flatMap (fun h =>
    (sampleUniqueSecondsWithinHour (o.hourPicks h)
      ((perHourQuotas config o.weights o.addIdxs o.subIdxs).getD h 0)).map
      (fun (s : ℕ) => config.startMs + (h : ℤ) * 3600000 + (s : ℤ) * 1000)) with hraw
  set sortedRaw := List.insertionSort (· ≤ ·) raw with hsortedRaw
  have hrawge : ∀ t ∈ raw, config.startMs ≤ t := by
    intro t ht
    rw [hraw, List.mem_flatMap] at ht
    obtain ⟨h, -, ht⟩ := ht
    obtain ⟨sec, -, rfl⟩ := List.mem_map.1 ht
    omega
  have hsortge : ∀ t ∈ sortedRaw, config.startMs ≤ t := by
    intro t ht
    exact hrawge t ((List.perm_insertionSort (· ≤ ·) raw).mem_iff.1 ht)
  have hsorted : ∀ j, j + 1 < sortedRaw.length →
      sortedRaw.getD j 0 ≤ sortedRaw.getD (j+1) 0 := by
    rw [← chain'_iff_getD]
    exact List.chain'_iff_pairwise.2 (List.sorted_insertionSort (· ≤ ·) raw)
  obtain ⟨hlen, hsort, -, hhead⟩ := enforceUniqueIntervals_spec sortedRaw hsorted
  refine ⟨hsort, ?_⟩
  intro t ht
  obtain ⟨j, hj, rfl⟩ := List.mem_iff_getElem.1 ht
  rw [← List.getD_eq_getElem _ 0 hj]
  have hle0 := sorted_getD_zero_le _ hsort j hj
  refine le_trans ?_ hle0
  rw [hhead]
  by_cases hnil : sortedRaw.length = 0
  · rw [hlen, hnil] at hj
    omega
  · have h0 : sortedRaw.getD 0 0 ∈ sortedRaw :=
      getD_mem sortedRaw 0 (by omega)
    exact hsortge _ h0

/-- C7: with the special phase enabled and `initialBurstCount = 0`, the full
schedule is exactly the 8 countdown events followed by the `start` event at
the launch instant, followed by the regular `buy` schedule; the special
events are strictly increasing in time, ending at the launch instant, and
every `buy` event is a `buy` at or after the launch instant (so the regular
schedule starts at the launch instant). -/
theorem c7_special_phase_layout (o : Oracle) (config : Config) (sp : SpecialPhase)
    (hsp : config.specialPhase = some sp) (hen : sp.enabled = true)
    (hburst : sp.initialBurstCount = 0)
    (hT : 0 < config.targetTotalUsd) (hA : 0 < config.amountPerMessageUsd) :
    (generateFullSchedule o config).1 = specialEvents sp ++ regularBuys o config sp ∧
    (specialEvents sp).map SEvent.kind =
      [.countdown, .countdown, .countdown, .countdown, .countdown, .countdown,
       .countdown, .countdown, .start] ∧
    List.Chain' (· < ·) ((specialEvents sp).map SEvent.atMs) ∧
    ((specialEvents sp).map SEvent.atMs).getLast? = some sp.presaleStartMs ∧
    (∀ e ∈ regularBuys o config sp, e.kind = .buy ∧ sp.presaleStartMs ≤ e.atMs) := by
  have htot := totalMessagesNeeded_pos config hT hA
  have hlist : (specialEvents sp).map SEvent.atMs =
      [sp.presaleStartMs - 59 * 60000, sp.presaleStartMs - 30 * 60000,
       sp.presaleStartMs - 15 * 60000, sp.presaleStartMs - 5 * 60000,
       sp.presaleStartMs - 4 * 60000, sp.presaleStartMs - 3 * 60000,
       sp.presaleStartMs - 2 * 60000, sp.presaleStartMs - 1 * 60000,
       sp.presaleStartMs] := by
    simp [specialEvents, countdownMinutes]
  have hbuys : ∀ e ∈ regularBuys o config sp, e.kind = .buy ∧
      sp.presaleStartMs ≤ e.atMs := by
    intro e he
    obtain ⟨t, ht, rfl⟩ := List.mem_map.1 he
    exact ⟨rfl, (generateSchedule_spec o _).2 t ht⟩
  have hspecle : ∀ a ∈ specialEvents sp, a.atMs ≤ sp.presaleStartMs := by
    intro a ha
    have hmem : a.atMs ∈ (specialEvents sp).map SEvent.atMs :=
      List.mem_map_of_mem SEvent.atMs ha
    rw [hlist] at hmem
    simp only [List.mem_cons, List.not_mem_nil, or_false] at hmem
    omega
  have hpairspec : List.Pairwise eventLe (specialEvents sp) := by
    have hmap : List.Pairwise (· ≤ ·) ((specialEvents sp).map SEvent.atMs) := by
      rw [hlist, ← List.chain'_iff_pairwise]
      refine List.chain'_cons.2 ⟨by omega, ?_⟩
      refine List.chain'_cons.2 ⟨by omega, ?_⟩
      refine List.chain'_cons.2 ⟨by omega, ?_⟩
      refine List.chain'_cons.2 ⟨by omega, ?_⟩
      refine List.chain'_cons.2 ⟨by omega, ?_⟩
      refine List.chain'_cons.2 ⟨by omega, ?_⟩
      refine List.chain'_cons.2 ⟨by omega, ?_⟩
      refine List.chain'_cons.2 ⟨by omega, ?_⟩
      exact List.chain'_singleton _
    exact (List.pairwise_map.1 hmap).imp (fun h => h)
  have hpairbuys : List.Pairwise eventLe (regularBuys o config sp) := by
    unfold regularBuys
    rw [List.pairwise_map]
    have hz : List.Pairwise (fun a b : ℤ => a ≤ b)
        ((generateSchedule o
          { config with
            startMs := sp.presaleStartMs
            targetTotalUsd := ((totalMessagesNeeded config : ℤ) : ℚ) *
              config.amountPerMessageUsd }).1) := by
      rw [← List.chain'_iff_pairwise, chain'_iff_getD]
      exact (generateSchedule_spec o _).1
    exact hz.imp (fun h => h)
  have hpair : List.Pairwise eventLe
      (specialEvents sp ++ regularBuys o config sp) := by
    rw [List.pairwise_append]
    refine ⟨hpairspec, hpairbuys, ?_⟩
    intro a ha b hb
    show a.atMs ≤ b.atMs
    exact le_trans (hspecle a ha) (hbuys b hb).2
  have heq : (generateFullSchedule o config).1 =
      specialEvents sp ++ regularBuys o config sp := by
    have hstep : generateFullSchedule o config =
        finishSchedule o config config.amountPerMessageUsd (specialEvents sp)
          (totalMessagesNeeded config) sp.presaleStartMs := by
      unfold generateFullSchedule
      rw [hsp]
      simp only [hen, hburst, if_true, lt_self_iff_false, if_false]
    rw [hstep]
    simp only [finishSchedule]
    rw [if_pos htot]
    with_reducible show (List.insertionSort eventLe
        (specialEvents sp ++
          List.map (fun t => ({ atMs := t, kind := EKind.buy } : SEvent))
            (generateSchedule o
              { config with
                startMs := sp.presaleStartMs
                targetTotalUsd := ((totalMessagesNeeded config : ℤ) : ℚ) *
                  config.amountPerMessageUsd }).1) =
      specialEvents sp ++ regularBuys o config sp)
    exact List.Sorted.insertionSort_eq hpair
  refine ⟨heq, ?_, ?_, ?_, hbuys⟩
  · simp [specialEvents, countdownMinutes]
  · rw [hlist]
    refine List.chain'_cons.2 ⟨by omega, ?_⟩
    refine List.chain'_cons.2 ⟨by omega, ?_⟩
    refine List.chain'_cons.2 ⟨by omega, ?_⟩
    refine List.chain'_cons.2 ⟨by omega, ?_⟩
    refine List.chain'_cons.2 ⟨by omega, ?_⟩
    refine List.chain'_cons.2 ⟨by omega, ?_⟩
    refine List.chain'_cons.2 ⟨by omega, ?_⟩
    refine List.chain'_cons.2 ⟨by omega, ?_⟩
    exact List.chain'_singleton _
  · rw [hlist]
    rfl

/-- Witness for C7 at the concrete no-burst fixture: the hypotheses hold by
computation and the layout conclusion follows. -/
theorem c7_special_phase_layout_witness :
    cfgNoBurst.specialPhase = some spNoBurst ∧ spNoBurst.enabled = true ∧
    spNoBurst.initialBurstCount = 0 ∧ 0 < cfgNoBurst.targetTotalUsd ∧
    0 < cfgNoBurst.amountPerMessageUsd ∧
    (generateFullSchedule oracleNoBurst cfgNoBurst).1 =
      specialEvents spNoBurst ++ regularBuys oracleNoBurst cfgNoBurst spNoBurst :=
  ⟨rfl, rfl, rfl, by decide, by decide,
    (c7_special_phase_layout oracleNoBurst cfgNoBurst spNoBurst rfl rfl rfl
      (by decide) (by decide)).1⟩

/-- C10 (amended): when the special phase is enabled with a positive
`initialBurstCount` that is at least the total message count, and the burst
count fits within the burst window (`initialBurstCount ≤ burstSpanSec`, with
the oracle supplying that many distinct seconds), the full schedule contains
exactly `initialBurstCount` buy events, which then equals
`max initialBurstCount ⌈targetTotalUsd / amountPerMessageUsd⌉`.  The original
claim's unconditional `max` formula fails when the burst exceeds the window:
`sampleUniqueSeconds` truncates the burst to `burstSpanSec` seconds (see the
counterexample). -/
theorem c10_amended (o : Oracle) (config : Config) (sp : SpecialPhase)
    (hsp : config.specialPhase = some sp) (hen : sp.enabled = true)
    (hpos : 0 < sp.initialBurstCount)
    (htot : totalMessagesNeeded config ≤ (sp.initialBurstCount : ℤ))
    (hspan : sp.initialBurstCount ≤
      (if sp.initialBurstMinutes = 0 then 10 else sp.initialBurstMinutes) * 60)
    (hpick : o.burstPick.length = sp.initialBurstCount) :
    (generateFullSchedule o config).1.countP (fun e => e.kind == EKind.buy) =
      sp.initialBurstCount ∧
    (sp.initialBurstCount : ℤ) =
      max ((sp.initialBurstCount : ℤ)) (totalMessagesNeeded config) := by
  refine ⟨?_, (max_eq_left htot).symm⟩
  have hstep : generateFullSchedule o config =
      finishSchedule o config config.amountPerMessageUsd
        (specialEvents sp ++
          (sampleUniqueSeconds o.burstPick (sp.initialBurstCount : ℤ)
              ((if sp.initialBurstMinutes = 0 then 10 else sp.initialBurstMinutes) * 60)).map
            (fun (s : ℕ) =>
              (⟨sp.presaleStartMs + (s : ℤ) * 1000, .buy⟩ : SEvent)))
        (totalMessagesNeeded config -
          min ((sp.initialBurstCount : ℤ)) (totalMessagesNeeded config))
        (sp.presaleStartMs +
          ((((if sp.initialBurstMinutes = 0 then 10 else sp.initialBurstMinutes) * 60 : ℕ)) : ℤ) * 1000) := by
    unfold generateFullSchedule
    rw [hsp]
    simp only [hen, if_true]
    rw [if_pos hpos]
  have hrem : totalMessagesNeeded config -
      min ((sp.initialBurstCount : ℤ)) (totalMessagesNeeded config) = 0 := by
    rw [min_eq_right htot]
    omega
  rw [hstep, hrem]
  simp only [finishSchedule, lt_self_iff_false, if_false]
  with_reducible show ((List.insertionSort eventLe
      (specialEvents sp ++
        (sampleUniqueSeconds o.burstPick (sp.initialBurstCount : ℤ)
            ((if sp.initialBurstMinutes = 0 then 10 else sp.initialBurstMinutes) * 60)).map
          (fun (s : ℕ) =>
            (⟨sp.presaleStartMs + (s : ℤ) * 1000, .buy⟩ : SEvent)))).countP
      (fun e => e.kind == EKind.buy) = sp.initialBurstCount)
  rw [List.Perm.countP_eq _ (List.perm_insertionSort eventLe _)]
  rw [List.countP_append]
  have hspec0 : (specialEvents sp).countP (fun e => e.kind == EKind.buy) = 0 := by
    refine List.countP_eq_zero.2 ?_
    intro a ha
    rcases List.mem_append.1 ha with h | h
    · obtain ⟨m, -, rfl⟩ := List.mem_map.1 h
      simp
    · rw [List.mem_singleton] at h
      rw [h]
      simp
  have hsecs : (sampleUniqueSeconds o.burstPick (sp.initialBurstCount : ℤ)
      ((if sp.initialBurstMinutes = 0 then 10 else sp.initialBurstMinutes) * 60)).length =
      sp.initialBurstCount := by
    simp only [sampleUniqueSeconds]
    by_cases hmx : ((max 1 ((if sp.initialBurstMinutes = 0 then 10
        else sp.initialBurstMinutes) * 60) : ℕ) : ℤ) ≤ (sp.initialBurstCount : ℤ)
    · rw [if_pos hmx, List.length_range]
      have h2 : sp.initialBurstCount ≤ max 1 ((if sp.initialBurstMinutes = 0 then 10
          else sp.initialBurstMinutes) * 60) :=
        le_trans hspan (le_max_right 1 _)
      omega
    · rw [if_neg hmx]
      exact hpick
  have hmapc : ((sampleUniqueSeconds o.burstPick (sp.initialBurstCount : ℤ)
        ((if sp.initialBurstMinutes = 0 then 10 else sp.initialBurstMinutes) * 60)).map
      (fun (s : ℕ) =>
        (⟨sp.presaleStartMs + (s : ℤ) * 1000, .buy⟩ : SEvent))).countP
      (fun e => e.kind == EKind.buy) =
      (sampleUniqueSeconds o.burstPick (sp.initialBurstCount : ℤ)
        ((if sp.initialBurstMinutes = 0 then 10 else sp.initialBurstMinutes) * 60)).length := by
    rw [List.countP_eq_length.2 ?_, List.length_map]
    intro a ha
    obtain ⟨sec, -, rfl⟩ := List.mem_map.1 ha
    simp
  rw [hspec0, hmapc, hsecs]
  omega

/-- Counterexample to the unconditional C10 formula: with a 1-minute burst
window and `initialBurstCount = 61`, the schedule holds only 60 buy events,
not `max 61 1 = 61`. -/
theorem c10_counterexample :
    totalMessagesNeeded cfgBurst61 = 1 ∧
    spBurst61.initialBurstCount = 61 ∧
    max spBurst61.initialBurstCount 1 = 61 ∧
    (generateFullSchedule oracleBase cfgBurst61).1.countP
      (fun e => e.kind == EKind.buy) = 60 := by
  refine ⟨by decide, by decide, by decide, by decide⟩

/-- Witness for C10 (amended) at the concrete two-event burst fixture. -/
theorem c10_amended_witness :
    cfgBurst2.specialPhase = some spBurst2 ∧ spBurst2.enabled = true ∧
    0 < spBurst2.initialBurstCount ∧
    totalMessagesNeeded cfgBurst2 ≤ (spBurst2.initialBurstCount : ℤ) ∧
    spBurst2.initialBurstCount ≤
      (if spBurst2.initialBurstMinutes = 0 then 10 else spBurst2.initialBurstMinutes) * 60 ∧
    oracleBurst2.burstPick.length = spBurst2.initialBurstCount ∧
    (generateFullSchedule oracleBurst2 cfgBurst2).1.countP
      (fun e => e.kind == EKind.buy) = spBurst2.initialBurstCount :=
  ⟨rfl, rfl, by decide, by decide, by decide, rfl,
    (c10_amended oracleBurst2 cfgBurst2 spBurst2 rfl rfl (by decide) (by decide)
      (by decide) rfl).1⟩

end Bblp
